import Mathlib

/-!
# Verification of the TOPSIS profile-selection core

A shallow embedding, in Lean 4 over `ℚ` and `ℝ`, of the algorithmic core of
the `topsis_profiles_selection` repository:

* `src/core/skill_transformer.py` — `SkillTransformer` (criteria
  classification by threshold) and `WeightGenerator` (four weight
  strategies);
* `src/core/topsis_engine.py` — the `TopsisEngine` pipeline (column
  normalization, weighting, ideal points, Euclidean distances, the standard
  and variant proximity formulas, and the ranking);
* `src/core/optimal_assignment.py` — `OptimalAssignment` (exact assignment
  via the Hungarian algorithm, and the greedy heuristic).

Python floats are modelled by exact arithmetic (`ℚ` for the purely rational
computations, `ℝ` with `Real.sqrt` for the pipeline stages that take square
roots); numpy arrays by lists or `Fin`-indexed functions; a raised exception
by an `Except`/`Option` error value.
-/

/-! ## skill_transformer.py: SkillTransformer -/

/-- The mutable state of a `SkillTransformer` instance: the three fields set
by `SkillTransformer.__init__` (`skill_transformer.py`, lines 20-36). -/
structure SkillTransformer where
  threshold : ℚ
  min_threshold : ℚ
  max_threshold : ℚ
  deriving DecidableEq

/-- `SkillTransformer._validate_threshold` (lines 41-47): raises `ValueError`
unless `min_threshold <= threshold <= max_threshold`. -/
def validate_threshold (s : SkillTransformer) : Except String Unit :=
  if s.min_threshold ≤ s.threshold ∧ s.threshold ≤ s.max_threshold then
    Except.ok ()
  else
    Except.error "Threshold must be between min_threshold and max_threshold"

/-- `SkillTransformer.__init__` (lines 20-39): stores the three fields and
then calls `_validate_threshold`, so an out-of-range threshold raises. -/
def SkillTransformer.make (threshold min_threshold max_threshold : ℚ) :
    Except String SkillTransformer :=
  let s : SkillTransformer := ⟨threshold, min_threshold, max_threshold⟩
  match validate_threshold s with
  | Except.ok _ => Except.ok s
  | Except.error e => Except.error e

/-- `SkillTransformer.set_threshold` (lines 160-168): assigns
`self.threshold = new_threshold` FIRST and only then calls
`_validate_threshold`.  The returned pair is the state of the instance after
the call together with the error the call raised, if any: on a validation
error the exception propagates but the assignment has already happened. -/
def set_threshold (s : SkillTransformer) (new_threshold : ℚ) :
    SkillTransformer × Option String :=
  let s' : SkillTransformer := { s with threshold := new_threshold }
  match validate_threshold s' with
  | Except.ok _ => (s', none)
  | Except.error e => (s', some e)

/-- `SkillTransformer.determine_criteria_types` (lines 49-70): criterion `i`
gets type `1` (beneficial) when `required_skill_levels[i] >= threshold`,
else `0` (non-beneficial). -/
def determine_criteria_types (s : SkillTransformer)
    (required_skill_levels : List ℚ) : List ℕ :=
  required_skill_levels.map (fun level => if level ≥ s.threshold then 1 else 0)

/-! ## skill_transformer.py: WeightGenerator -/

/-- `WeightGenerator.uniform_weights` (lines 256-267): `np.ones(n) / n`. -/
def uniform_weights (n_criteria : ℕ) : List ℚ :=
  List.replicate n_criteria (1 / (n_criteria : ℚ))

/-- `WeightGenerator.importance_based_weights` (lines 269-283):
`weights / np.sum(weights)`, with no guard against a zero sum. -/
def importance_based_weights (importance_scores : List ℚ) : List ℚ :=
  importance_scores.map (fun w => w / importance_scores.sum)

/-- `WeightGenerator.requirement_based_weights` (lines 285-304):
`np.maximum(required_levels, 0.1)` renormalized by its sum.  The `threshold`
argument is accepted but never used, exactly as in the source. -/
def requirement_based_weights (required_levels : List ℚ) (_threshold : ℚ) :
    List ℚ :=
  let weights := required_levels.map (fun w => max w (1 / 10))
  weights.map (fun w => w / weights.sum)

/-- `WeightGenerator.hybrid_weights` (lines 306-327):
`alpha * req_weights + (1 - alpha) * imp_weights`, renormalized, where both
ingredient vectors are themselves sum-normalized; no zero-sum guard. -/
def hybrid_weights (required_levels importance_scores : List ℚ)
    (alpha : ℚ) : List ℚ :=
  let req_weights := required_levels.map (fun w => w / required_levels.sum)
  let imp_weights :=
    importance_scores.map (fun w => w / importance_scores.sum)
  let hybrid :=
    List.zipWith (fun a b => alpha * a + (1 - alpha) * b) req_weights
      imp_weights
  hybrid.map (fun w => w / hybrid.sum)

/-! ## Claim C6: set_threshold is not all-or-nothing -/

/-- C6: calling `set_threshold` with the value `10` on a transformer whose
range is `[0, 5]` and whose stored threshold is `3` raises a validation
error, yet afterwards the stored threshold is `10`, not the previous `3`:
the failed core invocation is NOT all-or-nothing. -/
theorem set_threshold_error_mutates_state :
    ((set_threshold ⟨3, 0, 5⟩ 10).2.isSome = true) ∧
      (set_threshold ⟨3, 0, 5⟩ 10).1.threshold = 10 ∧
      ¬ (set_threshold ⟨3, 0, 5⟩ 10).1.threshold = 3 := by
  decide

/-! ## Claim C5: no zero-sum guard in the weight strategies -/

/-- C5: `importance_based_weights` applied to the zero-sum input `[0, 0]`
does not fail: the code has no error path at all (in numpy the division by
the zero sum merely emits a runtime warning and yields NaNs), so the
embedding is a total function and returns a 2-element result. -/
theorem importance_based_weights_no_zero_sum_guard :
    (importance_based_weights [0, 0]).length = 2 := by
  decide

/-! ## List helpers shared by several claims -/

/-- Renormalizing a list by a scalar divides its sum by that scalar. -/
theorem sum_map_div (l : List ℚ) (s : ℚ) :
    (l.map (fun w => w / s)).sum = l.sum / s := by
  induction l with
  | nil => simp
  | cons a t ih => simp [ih, add_div]

/-- The sum of an affine `zipWith` combination of two equal-length lists. -/
theorem sum_zipWith_affine (p q : ℚ) (xs ys : List ℚ)
    (h : xs.length = ys.length) :
    (List.zipWith (fun a b => p * a + q * b) xs ys).sum
      = p * xs.sum + q * ys.sum := by
  induction xs generalizing ys with
  | nil =>
      have hy : ys = [] := List.length_eq_zero.mp h.symm
      simp [hy]
  | cons a t ih =>
      cases ys with
      | nil => simp at h
      | cons b u =>
          simp only [List.zipWith_cons_cons, List.sum_cons]
          rw [ih u (by simpa using h)]
          ring

/-- `getD` through a `map`, inside bounds. -/
theorem getD_map_of_lt {α β : Type} (f : α → β) (l : List α) (i : ℕ)
    (hi : i < l.length) (d : β) (e : α) :
    (l.map f).getD i d = f (l.getD i e) := by
  induction l generalizing i with
  | nil => simp at hi
  | cons a t ih =>
      cases i with
      | zero => simp
      | succ n =>
          simp only [List.map_cons, List.getD_cons_succ]
          exact ih n (by simpa using hi)

/-- Every element of a `zipWith` comes from a pair of elements. -/
theorem exists_of_mem_zipWith {α : Type} {f : α → α → α} {xs ys : List α}
    {x : α} (h : x ∈ List.zipWith f xs ys) :
    ∃ a ∈ xs, ∃ b ∈ ys, x = f a b := by
  induction xs generalizing ys with
  | nil => simp at h
  | cons a t ih =>
      cases ys with
      | nil => simp at h
      | cons b u =>
          rcases List.mem_cons.mp h with h0 | h1
          · exact ⟨a, List.mem_cons_self a t, b, List.mem_cons_self b u, h0⟩
          · rcases ih h1 with ⟨c, hc, d, hd, hx⟩
            exact ⟨c, List.mem_cons_of_mem a hc, d,
              List.mem_cons_of_mem b hd, hx⟩

/-- Dividing a list by its own nonzero sum yields a list of sum `1`. -/
theorem normalized_sum_one (ws : List ℚ) (h : ws.sum ≠ 0) :
    (ws.map (fun w => w / ws.sum)).sum = 1 := by
  rw [sum_map_div, div_self h]

/-! ## Claim C8: criteria classification -/

/-- C8: constructing a `SkillTransformer` with a threshold outside
`[min_threshold, max_threshold]` raises a configuration error; with a
threshold inside that interval construction succeeds and
`determine_criteria_types` sends criterion `i` to `1` (beneficial) exactly
when `required_levels[i] >= threshold`, and to `0` (cost) otherwise, for
every vector of required levels. -/
theorem classifier_threshold_validation_and_types (t mn mx : ℚ)
    (levels : List ℚ) :
    (¬ (mn ≤ t ∧ t ≤ mx) →
      ∃ e, SkillTransformer.make t mn mx = Except.error e) ∧
    (mn ≤ t ∧ t ≤ mx →
      SkillTransformer.make t mn mx = Except.ok ⟨t, mn, mx⟩) ∧
    (determine_criteria_types ⟨t, mn, mx⟩ levels).length = levels.length ∧
    ∀ i, i < levels.length →
      (determine_criteria_types ⟨t, mn, mx⟩ levels).getD i 0
        = if levels.getD i 0 ≥ t then 1 else 0 := by
  refine ⟨fun h => ?_, fun h => ?_, by simp [determine_criteria_types],
    fun i hi => ?_⟩
  · simp only [SkillTransformer.make, validate_threshold, if_neg h]
    exact ⟨_, rfl⟩
  · simp [SkillTransformer.make, validate_threshold, h]
  · simpa [determine_criteria_types] using
      getD_map_of_lt (fun level => if level ≥ t then (1 : ℕ) else 0)
        levels i hi 0 0

/-- C8, concrete instance: threshold `7` is rejected for the range `[0, 5]`,
and with threshold `3` the required levels `[4, 2]` classify as
`[beneficial, cost]`. -/
theorem classifier_threshold_types_witness :
    (∃ e, SkillTransformer.make 7 0 5 = Except.error e) ∧
      determine_criteria_types ⟨3, 0, 5⟩ [4, 2] = [1, 0] :=
  ⟨(classifier_threshold_validation_and_types 7 0 5 []).1 (by norm_num),
    by with_unfolding_all decide⟩

/-! ## Claim C9: weight strategies -/

/-- C9, counterexample: `importance_based_weights` does not return a
non-negative vector on every input: on `[-1, 2]` (sum `1`) the first
returned weight is `-1 < 0`. -/
theorem importance_weights_negative_entry :
    ¬ ∀ x ∈ importance_based_weights [-1, 2], 0 ≤ x := by
  with_unfolding_all decide

/-- C9, amended: each strategy returns non-negative weights summing to `1`
on its valid inputs: `uniform_weights` for `n > 0`;
`requirement_based_weights` for any nonempty input (the `0.1` floor makes
every weight strictly positive, and the output is proportional to
`max(required_level, 0.1)`); `importance_based_weights` for non-negative
scores of positive sum; `hybrid_weights` for `alpha ∈ [0, 1]` and
equal-length non-negative inputs of positive sums. -/
theorem weight_strategies_normalized (n : ℕ) (lv sc : List ℚ)
    (th alpha : ℚ) :
    (0 < n → (uniform_weights n).sum = 1 ∧ ∀ x ∈ uniform_weights n, 0 ≤ x) ∧
    (lv ≠ [] →
      (requirement_based_weights lv th).sum = 1 ∧
      (∀ x ∈ requirement_based_weights lv th, 0 < x) ∧
      ∃ c, 0 < c ∧
        requirement_based_weights lv th
          = lv.map (fun l => c * max l (1 / 10))) ∧
    ((∀ x ∈ sc, 0 ≤ x) → 0 < sc.sum →
      (importance_based_weights sc).sum = 1 ∧
      ∀ x ∈ importance_based_weights sc, 0 ≤ x) ∧
    (0 ≤ alpha → alpha ≤ 1 → lv.length = sc.length →
      (∀ x ∈ lv, 0 ≤ x) → 0 < lv.sum → (∀ x ∈ sc, 0 ≤ x) → 0 < sc.sum →
      (hybrid_weights lv sc alpha).sum = 1 ∧
      ∀ x ∈ hybrid_weights lv sc alpha, 0 ≤ x) := by
  refine ⟨fun hn => ⟨?_, ?_⟩, fun hlv => ?_, fun hsc hscs => ⟨?_, ?_⟩,
    fun ha0 ha1 hlen hlvn hlvs hscn hscs => ⟨?_, ?_⟩⟩
  · have hne : (n : ℚ) ≠ 0 := Nat.cast_ne_zero.mpr hn.ne'
    simp [uniform_weights, List.sum_replicate, nsmul_eq_mul,
      mul_one_div_cancel hne, mul_inv_cancel₀ hne]
  · intro x hx
    rcases (List.mem_replicate.mp hx) with ⟨-, rfl⟩
    positivity
  · -- requirement_based_weights
    have hpos : ∀ x ∈ lv.map (fun w => max w (1 / 10)), 0 < x := by
      intro x hx
      rcases List.mem_map.mp hx with ⟨a, -, rfl⟩
      exact lt_of_lt_of_le (by norm_num) (le_max_right a (1 / 10))
    have hne : lv.map (fun w => max w (1 / 10)) ≠ [] := by
      simpa [List.map_eq_nil_iff] using hlv
    have hS : 0 < (lv.map (fun w => max w (1 / 10))).sum :=
      List.sum_pos _ hpos hne
    refine ⟨?_, ?_, ?_⟩
    · simpa [requirement_based_weights] using
        normalized_sum_one (lv.map (fun w => max w (1 / 10))) hS.ne'
    · intro x hx
      simp only [requirement_based_weights, List.mem_map] at hx
      rcases hx with ⟨a, ⟨b, hb, rfl⟩, rfl⟩
      exact div_pos (hpos _ (List.mem_map.mpr ⟨b, hb, rfl⟩)) hS
    · refine ⟨(lv.map (fun w => max w (1 / 10))).sum⁻¹, inv_pos.mpr hS, ?_⟩
      simp only [requirement_based_weights, List.map_map]
      refine List.map_congr_left fun a _ => ?_
      simp [div_eq_inv_mul, Function.comp]
  · simpa [importance_based_weights] using normalized_sum_one sc hscs.ne'
  · intro x hx
    simp only [importance_based_weights, List.mem_map] at hx
    rcases hx with ⟨a, ha, rfl⟩
    exact div_nonneg (hsc a ha) hscs.le
  · -- hybrid sum
    have hreq : (lv.map (fun w => w / lv.sum)).sum = 1 :=
      normalized_sum_one lv hlvs.ne'
    have himp : (sc.map (fun w => w / sc.sum)).sum = 1 :=
      normalized_sum_one sc hscs.ne'
    have hzlen : (lv.map (fun w => w / lv.sum)).length
        = (sc.map (fun w => w / sc.sum)).length := by
      simpa using hlen
    have hsum : (List.zipWith (fun a b => alpha * a + (1 - alpha) * b)
        (lv.map (fun w => w / lv.sum))
        (sc.map (fun w => w / sc.sum))).sum = 1 := by
      rw [sum_zipWith_affine _ _ _ _ hzlen, hreq, himp]
      ring
    simp only [hybrid_weights]
    rw [normalized_sum_one _ (by rw [hsum]; norm_num)]
  · intro x hx
    have hreq : (lv.map (fun w => w / lv.sum)).sum = 1 :=
      normalized_sum_one lv hlvs.ne'
    have himp : (sc.map (fun w => w / sc.sum)).sum = 1 :=
      normalized_sum_one sc hscs.ne'
    have hzlen : (lv.map (fun w => w / lv.sum)).length
        = (sc.map (fun w => w / sc.sum)).length := by
      simpa using hlen
    have hsum : (List.zipWith (fun a b => alpha * a + (1 - alpha) * b)
        (lv.map (fun w => w / lv.sum))
        (sc.map (fun w => w / sc.sum))).sum = 1 := by
      rw [sum_zipWith_affine _ _ _ _ hzlen, hreq, himp]
      ring
    simp only [hybrid_weights, List.mem_map] at hx
    rcases hx with ⟨a, ha, rfl⟩
    have hanonneg : 0 ≤ a := by
      rcases exists_of_mem_zipWith ha with ⟨p, hp, q, hq, rfl⟩
      rcases List.mem_map.mp hp with ⟨p0, hp0, rfl⟩
      rcases List.mem_map.mp hq with ⟨q0, hq0, rfl⟩
      have h1 : 0 ≤ p0 / lv.sum := div_nonneg (hlvn p0 hp0) hlvs.le
      have h2 : 0 ≤ q0 / sc.sum := div_nonneg (hscn q0 hq0) hscs.le
      have h3 : 0 ≤ 1 - alpha := by linarith
      exact add_nonneg (mul_nonneg ha0 h1) (mul_nonneg h3 h2)
    rw [hsum]
    simpa using hanonneg

/-- C9, concrete instance of the amended statement, at `n = 2`,
levels `[0, 4]`, scores `[1, 3]`, `alpha = 1/2`. -/
theorem weight_strategies_normalized_witness :
    ((uniform_weights 2).sum = 1 ∧ ∀ x ∈ uniform_weights 2, 0 ≤ x) ∧
    ((requirement_based_weights [0, 4] 3).sum = 1 ∧
      (∀ x ∈ requirement_based_weights [0, 4] 3, 0 < x) ∧
      ∃ c, 0 < c ∧
        requirement_based_weights [0, 4] 3
          = [(0 : ℚ), 4].map (fun l => c * max l (1 / 10))) ∧
    ((importance_based_weights [1, 3]).sum = 1 ∧
      ∀ x ∈ importance_based_weights [1, 3], 0 ≤ x) ∧
    ((hybrid_weights [0, 4] [1, 3] (1 / 2)).sum = 1 ∧
      ∀ x ∈ hybrid_weights [0, 4] [1, 3] (1 / 2), 0 ≤ x) := by
  have h := weight_strategies_normalized 2 [0, 4] [1, 3] 3 (1 / 2)
  refine ⟨h.1 (by norm_num), h.2.1 (by simp), h.2.2.1 ?_ ?_,
    h.2.2.2 (by norm_num) (by norm_num) (by simp) ?_ (by norm_num) ?_
      (by norm_num)⟩
  · intro x hx
    fin_cases hx <;> norm_num
  · norm_num
  · intro x hx
    fin_cases hx <;> norm_num
  · intro x hx
    fin_cases hx <;> norm_num

/-! ## topsis_engine.py: calculate_proximity, variant formula (lines 185-209)

The variant branch works on the two distance arrays `E+` (`distance_to_best`)
and `E-` (`distance_to_worst`); here it is embedded as a function of those
two lists.  The `Option` result records that when every raw ratio is zero
the code leaves `self.proximity_coefficients` unassigned (`None` on a fresh
engine): only when `max(raw) != 0` is a coefficient array stored and
returned. -/

/-- `np.max` of a list (the source only applies it to nonempty arrays). -/
def np_max (l : List ℚ) : ℚ :=
  match l with
  | [] => 0
  | a :: t => t.foldl max a

/-- The loop of lines 190-199: `raw[i] = E-[i] / E+[i]` when `E+[i] != 0`,
else `E-[i] / max(E+)` when `max(E+) != 0`, else `1`. -/
def rawVariant (dB dW : List ℚ) : List ℚ :=
  (List.range dB.length).map (fun i =>
    if dB.getD i 0 ≠ 0 then dW.getD i 0 / dB.getD i 0
    else if np_max dB ≠ 0 then dW.getD i 0 / np_max dB
    else 1)

/-- Lines 185-209: the raw ratios are renormalized by their maximum when
that maximum is nonzero; otherwise no coefficient array is assigned. -/
def calculate_proximity_variant (dB dW : List ℚ) : Option (List ℚ) :=
  let raw := rawVariant dB dW
  if np_max raw ≠ 0 then some (raw.map (fun r => r / np_max raw)) else none

/-- A left `max`-fold over a list is the start value or a member. -/
theorem foldl_max_mem (a : ℚ) (l : List ℚ) : l.foldl max a ∈ a :: l := by
  induction l generalizing a with
  | nil => simp
  | cons b t ih =>
      rcases List.mem_cons.mp (ih (max a b)) with h | h
      · rcases max_choice a b with hm | hm <;> rw [List.foldl_cons, h, hm]
        · exact List.mem_cons_self _ _
        · exact List.mem_cons_of_mem _ (List.mem_cons_self _ _)
      · exact List.mem_cons_of_mem _ (List.mem_cons_of_mem _ h)

/-- Every member of a list is bounded by a left `max`-fold over it. -/
theorem le_foldl_max (a : ℚ) (l : List ℚ) :
    a ≤ l.foldl max a ∧ ∀ x ∈ l, x ≤ l.foldl max a := by
  induction l generalizing a with
  | nil => simp
  | cons b t ih =>
      refine ⟨le_trans (le_max_left a b) (ih (max a b)).1, fun x hx => ?_⟩
      rcases List.mem_cons.mp hx with rfl | h
      · exact le_trans (le_max_right a x) (ih (max a x)).1
      · exact (ih (max a b)).2 x h

/-- `np_max` of a nonempty list is a member that bounds every member. -/
theorem np_max_spec (l : List ℚ) (h : l ≠ []) :
    np_max l ∈ l ∧ ∀ x ∈ l, x ≤ np_max l := by
  match l with
  | [] => exact absurd rfl h
  | a :: t =>
      refine ⟨foldl_max_mem a t, fun x hx => ?_⟩
      rcases List.mem_cons.mp hx with rfl | hm
      · exact (le_foldl_max x t).1
      · exact (le_foldl_max a t).2 x hm

/-- `np_max` commutes with division by a positive scalar. -/
theorem np_max_map_div (l : List ℚ) (m : ℚ) (hm : 0 < m) :
    np_max (l.map (fun r => r / m)) = np_max l / m := by
  match l with
  | [] => simp [np_max]
  | a :: t =>
      show (t.map (fun r => r / m)).foldl max (a / m) = t.foldl max a / m
      induction t generalizing a with
      | nil => simp
      | cons b u ih =>
          simp only [List.map_cons, List.foldl_cons,
            max_div_div_right hm.le a b]
          exact ih (max a b)

/-- `getD` on `List.range`, inside bounds. -/
theorem getD_range_of_lt (n i : ℕ) (hi : i < n) :
    (List.range n).getD i 0 = i := by
  rw [List.getD_eq_getElem?_getD, List.getElem?_range hi]
  rfl

/-- A `getD` inside bounds is a member of the list. -/
theorem getD_mem_of_lt (l : List ℚ) (i : ℕ) (h : i < l.length) :
    l.getD i 0 ∈ l := by
  rw [List.getD_eq_getElem _ _ h]
  exact List.getElem_mem h

/-! ## Claim C2: variant proximity formula -/

/-- C2, counterexample: with `E+ = [1]` and `E- = [0]` every raw ratio is
`0`, and `calculate_proximity_variant` then assigns nothing and returns the
previously stored value (`none` on a fresh engine) — NOT the all-zero
coefficient vector the claim describes. -/
theorem variant_all_zero_raw_returns_none :
    calculate_proximity_variant [1] [0] = none ∧
      calculate_proximity_variant [1] [0] ≠ some [0] := by
  with_unfolding_all decide

/-- C2, amended: `rawVariant` is exactly the claimed three-case ratio; when
`max(raw) != 0` the returned coefficients are `raw / max(raw)` and their
maximum is exactly `1`; when `max(raw) = 0` the method assigns nothing and
returns `none` (the fresh engine's stored value), not an all-zero vector. -/
theorem variant_proximity_normalization (dB dW : List ℚ)
    (hne : dB ≠ []) (hB : ∀ x ∈ dB, 0 ≤ x) (hW : ∀ x ∈ dW, 0 ≤ x) :
    (∀ i, i < dB.length →
      (rawVariant dB dW).getD i 0 =
        if dB.getD i 0 ≠ 0 then dW.getD i 0 / dB.getD i 0
        else if np_max dB ≠ 0 then dW.getD i 0 / np_max dB
        else 1) ∧
    (np_max (rawVariant dB dW) ≠ 0 →
      calculate_proximity_variant dB dW
          = some ((rawVariant dB dW).map
              (fun r => r / np_max (rawVariant dB dW))) ∧
      np_max ((rawVariant dB dW).map
          (fun r => r / np_max (rawVariant dB dW))) = 1) ∧
    (np_max (rawVariant dB dW) = 0 →
      calculate_proximity_variant dB dW = none) := by
  have hraw_nonneg : ∀ x ∈ rawVariant dB dW, 0 ≤ x := by
    intro x hx
    rcases List.mem_map.mp hx with ⟨i, -, rfl⟩
    have hBmax : 0 ≤ np_max dB := by
      rcases np_max_spec dB hne with ⟨hmem, -⟩
      exact hB _ hmem
    by_cases h1 : dB.getD i 0 ≠ 0
    · have : 0 ≤ dB.getD i 0 := by
        rcases Nat.lt_or_ge i dB.length with hi | hi
        · exact hB _ (getD_mem_of_lt _ _ hi)
        · rw [List.getD_eq_default _ _ hi]
      have hW0 : 0 ≤ dW.getD i 0 := by
        rcases Nat.lt_or_ge i dW.length with hi | hi
        · exact hW _ (getD_mem_of_lt _ _ hi)
        · rw [List.getD_eq_default _ _ hi]
      simp only [if_pos h1]
      exact div_nonneg hW0 this
    · simp only [if_neg h1]
      by_cases h2 : np_max dB ≠ 0
      · have hW0 : 0 ≤ dW.getD i 0 := by
          rcases Nat.lt_or_ge i dW.length with hi | hi
          · exact hW _ (getD_mem_of_lt _ _ hi)
          · rw [List.getD_eq_default _ _ hi]
        simp only [if_pos h2]
        exact div_nonneg hW0 hBmax
      · simp only [if_neg h2]
        norm_num
  have hraw_ne : rawVariant dB dW ≠ [] := by
    simp only [rawVariant, ne_eq, List.map_eq_nil_iff, List.range_eq_nil]
    intro h
    exact hne (List.length_eq_zero.mp h)
  refine ⟨fun i hi => ?_, fun hmax => ⟨?_, ?_⟩, fun hmax => ?_⟩
  · unfold rawVariant
    rw [getD_map_of_lt _ (List.range dB.length) i (by simpa using hi) 0 0,
      getD_range_of_lt _ _ hi]
  · simp only [calculate_proximity_variant, if_pos hmax]
  · have hmaxpos : 0 < np_max (rawVariant dB dW) :=
      lt_of_le_of_ne (hraw_nonneg _ (np_max_spec _ hraw_ne).1) (Ne.symm hmax)
    rw [np_max_map_div _ _ hmaxpos, div_self hmax]
  · simp only [calculate_proximity_variant, if_neg (not_not.mpr hmax)]

/-- C2, concrete instance: with `E+ = [2, 4]` and `E- = [1, 4]` the raw
ratios are `[1/2, 1]`, their maximum `1` is nonzero, and the returned
coefficients `[1/2, 1]` have maximum exactly `1`. -/
theorem variant_proximity_normalization_witness :
    calculate_proximity_variant [2, 4] [1, 4]
        = some ((rawVariant [2, 4] [1, 4]).map
            (fun r => r / np_max (rawVariant [2, 4] [1, 4]))) ∧
      np_max ((rawVariant [2, 4] [1, 4]).map
          (fun r => r / np_max (rawVariant [2, 4] [1, 4]))) = 1 :=
  (variant_proximity_normalization [2, 4] [1, 4] (by simp)
      (by with_unfolding_all decide) (by with_unfolding_all decide)).2.1
    (by with_unfolding_all decide)

/-! ## topsis_engine.py: get_ranking (lines 211-223)

`np.argsort(self.proximity_coefficients)[::-1]`.  `np.argsort` with its
default `kind='quicksort'` is documented as NOT stable: its contract is
only to return indices that put the coefficients in ascending order, and
the relative order of exactly tied indices is implementation-defined
(numpy's introsort runs a stable insertion sort only on subarrays below a
cutoff of about 16 elements, and reorders ties above it).  The embedding
therefore has two parts: `get_ranking_spec`, the set of outputs the
documented contract allows for any sort kind, and `get_ranking_small`, the
concrete output on the stable insertion-sort path numpy takes on small
arrays (such as the two-element tie of the counterexample below). -/

/-- The (value, index)-lexicographic order on indices of a coefficient
list: the ascending order realized by a STABLE argsort (equal keys keep
their original relative order).  Generic in the ordered field so that it
applies both to the exact `ℚ` computations and to the `ℝ`-valued pipeline
coefficients. -/
def rankLe {K : Type} [LinearOrder K] [Zero K] (s : List K) (a b : ℕ) :
    Prop :=
  s.getD a 0 < s.getD b 0 ∨ (s.getD a 0 = s.getD b 0 ∧ a ≤ b)

instance {K : Type} [LinearOrder K] [Zero K] (s : List K) :
    DecidableRel (rankLe s) := fun a b => by
  unfold rankLe
  infer_instance

instance {K : Type} [LinearOrder K] [Zero K] (s : List K) :
    IsTotal ℕ (rankLe s) := by
  constructor
  intro a b
  rcases lt_trichotomy (s.getD a 0) (s.getD b 0) with h | h | h
  · exact Or.inl (Or.inl h)
  · rcases Nat.le_total a b with hab | hab
    · exact Or.inl (Or.inr ⟨h, hab⟩)
    · exact Or.inr (Or.inr ⟨h.symm, hab⟩)
  · exact Or.inr (Or.inl h)

instance {K : Type} [LinearOrder K] [Zero K] (s : List K) :
    IsTrans ℕ (rankLe s) := by
  constructor
  intro a b c hab hbc
  rcases hab with h1 | ⟨h1, h1i⟩ <;> rcases hbc with h2 | ⟨h2, h2i⟩
  · exact Or.inl (h1.trans h2)
  · exact Or.inl (h2 ▸ h1)
  · exact Or.inl (h1 ▸ h2)
  · exact Or.inr ⟨h1.trans h2, h1i.trans h2i⟩

/-- An ascending argsort of the coefficient list `s`, as `np.argsort`'s
documented contract specifies it for every sort kind: some permutation of
the index range along which the coefficient values are non-decreasing.
The order of exactly tied indices is deliberately NOT fixed. -/
def isAscendingArgsort {K : Type} [LinearOrder K] [Zero K] (s : List K)
    (idx : List ℕ) : Prop :=
  idx.Perm (List.range s.length) ∧
    idx.Pairwise (fun a b => s.getD a 0 ≤ s.getD b 0)

/-- `TopsisEngine.get_ranking` (lines 211-223) at the contract level: `r`
is a possible result of `np.argsort(coefficients)[::-1]` (for any sort
kind) iff it is the reversal of some ascending argsort of the
coefficients. -/
def get_ranking_spec {K : Type} [LinearOrder K] [Zero K] (s : List K)
    (r : List ℕ) : Prop :=
  ∃ idx, isAscendingArgsort s idx ∧ r = idx.reverse

/-- `TopsisEngine.get_ranking` (lines 211-223) on numpy's small-array
path: below the introsort cutoff, `np.argsort`'s default sort is a plain
insertion sort, which is stable, so the ascending argsort is exactly the
(value, index)-lexicographic sort of the indices; line 221 reverses it. -/
def get_ranking_small {K : Type} [LinearOrder K] [Zero K] (s : List K) :
    List ℕ :=
  (List.insertionSort (rankLe s) (List.range s.length)).reverse

/-! ## Claim C3: ranking order and tie-breaking -/

/-- C3, counterexample: for the two-element coefficient list `[1/2, 1/2]`
(an exact tie; an array this small is sorted by `np.argsort`'s stable
insertion-sort path) the ranking is `[1, 0]` — the alternative with the
LARGER original index comes first, not the smaller one as the claim
states — and `[1, 0]` is an output the documented argsort contract
allows. -/
theorem get_ranking_tie_larger_index_first :
    get_ranking_small [1 / 2, 1 / 2] = [1, 0] ∧
      get_ranking_spec ([1 / 2, 1 / 2] : List ℚ) [1, 0] ∧
      ([1, 0] : List ℕ) ≠ [0, 1] := by
  refine ⟨by with_unfolding_all decide, ⟨[0, 1], ⟨?_, ?_⟩, rfl⟩, by decide⟩
  · exact List.Perm.refl _
  · with_unfolding_all decide

/-- C3, amended: every result of `get_ranking` that the documented argsort
contract allows — for any sort kind — lists each alternative index exactly
once, in weakly decreasing order of coefficient; the concrete small-array
result satisfies that contract.  The order of exactly tied alternatives is
implementation-defined (numpy's default quicksort is documented as not
stable), and is NOT the claimed smaller-index-first rule: on the traced
two-element tie the larger index comes first. -/
theorem get_ranking_sorted_descending (s : List ℚ) :
    get_ranking_spec s (get_ranking_small s) ∧
      ∀ r, get_ranking_spec s r →
        r.Perm (List.range s.length) ∧
          r.Pairwise (fun a b => s.getD b 0 ≤ s.getD a 0) := by
  constructor
  · refine ⟨List.insertionSort (rankLe s) (List.range s.length),
      ⟨List.perm_insertionSort _ _, ?_⟩, rfl⟩
    have hsorted : (List.insertionSort (rankLe s)
        (List.range s.length)).Pairwise (rankLe s) :=
      List.sorted_insertionSort (rankLe s) (List.range s.length)
    refine List.Pairwise.imp ?_ hsorted
    intro a b hab
    rcases hab with h | ⟨h, -⟩
    · exact le_of_lt h
    · exact le_of_eq h
  · rintro r ⟨idx, ⟨hperm, hasc⟩, rfl⟩
    exact ⟨(List.reverse_perm idx).trans hperm,
      List.pairwise_reverse.mpr hasc⟩

/-! ## topsis_engine.py: the full TOPSIS pipeline over `ℝ`

`TopsisEngine` with `n + 1` alternatives and `m` criteria.  The decision
matrix is `Fin (n+1) → Fin m → ℝ` (alternatives × criteria), `w` the raw
weight vector and `t` the criteria-type vector (`1` = beneficial).  The
weight normalization of `__init__` (line 48) is part of the pipeline. -/

/-- Line 48: `self.weights = self.weights / np.sum(self.weights)`. -/
noncomputable def weights_norm {m : ℕ} (w : Fin m → ℝ) : Fin m → ℝ :=
  fun j => w j / ∑ k, w k

/-- `normalize_matrix` (lines 82-99), the per-column Euclidean norm:
`np.sqrt(np.sum(decision_matrix ** 2, axis=0))`. -/
noncomputable def column_norm {n m : ℕ} (M : Fin (n + 1) → Fin m → ℝ)
    (j : Fin m) : ℝ :=
  Real.sqrt (∑ i, M i j ^ 2)

/-- Line 94: `column_norms[column_norms == 0] = 1`. -/
noncomputable def column_denom {n m : ℕ} (M : Fin (n + 1) → Fin m → ℝ)
    (j : Fin m) : ℝ :=
  if column_norm M j = 0 then 1 else column_norm M j

/-- Line 97: `normalized_matrix = decision_matrix / column_norms`. -/
noncomputable def normalized_matrix {n m : ℕ} (M : Fin (n + 1) → Fin m → ℝ)
    (i : Fin (n + 1)) (j : Fin m) : ℝ :=
  M i j / column_denom M j

/-- `apply_weights` (lines 101-114): `normalized_matrix * weights`, with
the weights already renormalized by their sum. -/
noncomputable def weighted_matrix {n m : ℕ} (M : Fin (n + 1) → Fin m → ℝ)
    (w : Fin m → ℝ) (i : Fin (n + 1)) (j : Fin m) : ℝ :=
  normalized_matrix M i j * weights_norm w j

/-- `determine_ideal_solutions` (lines 116-140), ideal best `A+`: column
max for beneficial criteria (`t j = 1`), column min otherwise. -/
noncomputable def ideal_best {n m : ℕ} (M : Fin (n + 1) → Fin m → ℝ)
    (w : Fin m → ℝ) (t : Fin m → ℕ) (j : Fin m) : ℝ :=
  if t j = 1 then
    Finset.univ.sup' Finset.univ_nonempty (fun i => weighted_matrix M w i j)
  else
    Finset.univ.inf' Finset.univ_nonempty (fun i => weighted_matrix M w i j)

/-- `determine_ideal_solutions` (lines 116-140), ideal worst `A-`: column
min for beneficial criteria, column max otherwise. -/
noncomputable def ideal_worst {n m : ℕ} (M : Fin (n + 1) → Fin m → ℝ)
    (w : Fin m → ℝ) (t : Fin m → ℕ) (j : Fin m) : ℝ :=
  if t j = 1 then
    Finset.univ.inf' Finset.univ_nonempty (fun i => weighted_matrix M w i j)
  else
    Finset.univ.sup' Finset.univ_nonempty (fun i => weighted_matrix M w i j)

/-- `calculate_distances` (lines 142-163): `E+[i]`, the Euclidean distance
of weighted row `i` from the ideal best. -/
noncomputable def distance_to_best {n m : ℕ} (M : Fin (n + 1) → Fin m → ℝ)
    (w : Fin m → ℝ) (t : Fin m → ℕ) (i : Fin (n + 1)) : ℝ :=
  Real.sqrt (∑ j, (weighted_matrix M w i j - ideal_best M w t j) ^ 2)

/-- `calculate_distances` (lines 142-163): `E-[i]`, the Euclidean distance
of weighted row `i` from the ideal worst. -/
noncomputable def distance_to_worst {n m : ℕ} (M : Fin (n + 1) → Fin m → ℝ)
    (w : Fin m → ℝ) (t : Fin m → ℕ) (i : Fin (n + 1)) : ℝ :=
  Real.sqrt (∑ j, (weighted_matrix M w i j - ideal_worst M w t j) ^ 2)

/-- `calculate_proximity`, standard branch (lines 178-183):
`S[i] = E-[i] / (E+[i] + E-[i])`, with the denominator replaced by the
epsilon `1e-10` when it is `0`. -/
noncomputable def proximity_standard {n m : ℕ} (M : Fin (n + 1) → Fin m → ℝ)
    (w : Fin m → ℝ) (t : Fin m → ℕ) (i : Fin (n + 1)) : ℝ :=
  distance_to_worst M w t i /
    (if distance_to_best M w t i + distance_to_worst M w t i = 0 then
      1 / 10 ^ 10
    else distance_to_best M w t i + distance_to_worst M w t i)

/-- `calculate_proximity`, variant branch, the loop of lines 190-199 at the
pipeline level (`np.max` over a nonempty `Fin (n+1)` column is `sup'`). -/
noncomputable def variant_raw {n m : ℕ} (M : Fin (n + 1) → Fin m → ℝ)
    (w : Fin m → ℝ) (t : Fin m → ℕ) (i : Fin (n + 1)) : ℝ :=
  if distance_to_best M w t i ≠ 0 then
    distance_to_worst M w t i / distance_to_best M w t i
  else if Finset.univ.sup' Finset.univ_nonempty
      (fun k => distance_to_best M w t k) ≠ 0 then
    distance_to_worst M w t i /
      Finset.univ.sup' Finset.univ_nonempty
        (fun k => distance_to_best M w t k)
  else 1

/-- `calculate_proximity`, variant branch, lines 201-204: the raw ratios
renormalized by their maximum when it is nonzero; `none` when every raw
ratio is `0` (the coefficients are then left unassigned). -/
noncomputable def proximity_variant {n m : ℕ} (M : Fin (n + 1) → Fin m → ℝ)
    (w : Fin m → ℝ) (t : Fin m → ℕ) : Option (Fin (n + 1) → ℝ) :=
  if Finset.univ.sup' Finset.univ_nonempty (variant_raw M w t) ≠ 0 then
    some (fun i =>
      variant_raw M w t i /
        Finset.univ.sup' Finset.univ_nonempty (variant_raw M w t))
  else none

/-- The ranking of lines 211-223 applied to the standard-formula pipeline
coefficients (on the stable small-array path; any other sort kind yields
the same list here up to the implementation-defined tie order, and the
scale-invariance theorem below only uses that the sort is a deterministic
function of the coefficient list). -/
noncomputable def topsis_ranking_standard {n m : ℕ}
    (M : Fin (n + 1) → Fin m → ℝ) (w : Fin m → ℝ) (t : Fin m → ℕ) :
    List ℕ :=
  get_ranking_small (List.ofFn (fun i => proximity_standard M w t i))

/-! ## Claim C4: standard proximity coefficients lie in [0, 1] -/

/-- C4: for every decision matrix, weight vector and criteria-type vector
(so in particular for every valid input), every standard-formula proximity
coefficient lies in `[0, 1]`; and when the denominator `E+ + E-` is `0`
the epsilon `1e-10` is substituted and the coefficient is exactly `0`,
which still lies in `[0, 1]`. -/
theorem standard_proximity_in_unit_interval {n m : ℕ}
    (M : Fin (n + 1) → Fin m → ℝ) (w : Fin m → ℝ) (t : Fin m → ℕ)
    (i : Fin (n + 1)) :
    (0 ≤ proximity_standard M w t i ∧ proximity_standard M w t i ≤ 1) ∧
      (distance_to_best M w t i + distance_to_worst M w t i = 0 →
        proximity_standard M w t i = 0) := by
  have hB : 0 ≤ distance_to_best M w t i := Real.sqrt_nonneg _
  have hW : 0 ≤ distance_to_worst M w t i := Real.sqrt_nonneg _
  by_cases h0 : distance_to_best M w t i + distance_to_worst M w t i = 0
  · have hW0 : distance_to_worst M w t i = 0 := by linarith
    have : proximity_standard M w t i = 0 := by
      simp [proximity_standard, h0, hW0]
    exact ⟨⟨this.ge, by rw [this]; norm_num⟩, fun _ => this⟩
  · have hpos : 0 < distance_to_best M w t i + distance_to_worst M w t i :=
      lt_of_le_of_ne (by linarith) (Ne.symm h0)
    constructor
    · constructor
      · unfold proximity_standard
        rw [if_neg h0]
        exact div_nonneg hW hpos.le
      · unfold proximity_standard
        rw [if_neg h0, div_le_one hpos]
        linarith
    · intro h
      exact absurd h h0

/-! ## Claim C10: invariance under positive scaling of the weights -/

/-- Scaling a weight vector of positive sum by a positive constant does not
change its sum-normalization (line 48 of `topsis_engine.py`). -/
theorem weights_norm_smul {m : ℕ} (w : Fin m → ℝ) (c : ℝ) (hc : 0 < c) :
    weights_norm (fun j => c * w j) = weights_norm w := by
  funext j
  unfold weights_norm
  rw [← Finset.mul_sum]
  rcases eq_or_ne (∑ k, w k) 0 with hs | hs
  · simp [hs]
  · rw [mul_div_mul_left _ _ hc.ne']

/-- C10: the engine renormalizes the supplied weights by their sum at
construction, so for every matrix, every criteria-type vector, every weight
vector of positive sum, and every scalar `c > 0`, running with weights
`c * w` yields exactly the same standard and variant proximity coefficients
and the same ranking as running with `w`. -/
theorem topsis_weight_scale_invariance {n m : ℕ}
    (M : Fin (n + 1) → Fin m → ℝ) (w : Fin m → ℝ) (t : Fin m → ℕ) (c : ℝ)
    (hc : 0 < c) (_hw : 0 < ∑ k, w k) :
    proximity_standard M (fun j => c * w j) t = proximity_standard M w t ∧
      proximity_variant M (fun j => c * w j) t = proximity_variant M w t ∧
      topsis_ranking_standard M (fun j => c * w j) t
        = topsis_ranking_standard M w t := by
  have hwm : weighted_matrix M (fun j => c * w j) = weighted_matrix M w := by
    funext i j
    unfold weighted_matrix
    rw [weights_norm_smul w c hc]
  have hstd : proximity_standard M (fun j => c * w j) t
      = proximity_standard M w t := by
    funext i
    simp only [proximity_standard, distance_to_best, distance_to_worst,
      ideal_best, ideal_worst, hwm]
  refine ⟨hstd, ?_, ?_⟩
  · simp only [proximity_variant, variant_raw, distance_to_best,
      distance_to_worst, ideal_best, ideal_worst, hwm]
  · unfold topsis_ranking_standard
    rw [hstd]

/-- A concrete 2-alternative, 1-criterion matrix of ones, for the C10
instance below. -/
def exM : Fin 2 → Fin 1 → ℝ := fun _ _ => 1

/-- A concrete weight vector `[1]`. -/
def exW : Fin 1 → ℝ := fun _ => 1

/-- A concrete criteria-type vector `[beneficial]`. -/
def exT : Fin 1 → ℕ := fun _ => 1

/-- C10, concrete instance: 2 alternatives, 1 criterion, matrix of ones,
weights `[1]` scaled by `c = 2`. -/
theorem topsis_weight_scale_invariance_witness :
    proximity_standard exM (fun j => 2 * exW j) exT
        = proximity_standard exM exW exT ∧
      proximity_variant exM (fun j => 2 * exW j) exT
        = proximity_variant exM exW exT ∧
      topsis_ranking_standard exM (fun j => 2 * exW j) exT
        = topsis_ranking_standard exM exW exT :=
  topsis_weight_scale_invariance exM exW exT 2 two_pos
    (by simp [exW])

/-! ## Claim C7: monotonicity machinery -/

/-- The decision matrix with the single entry `(i0, j0)` replaced by `v`
(the claim's "increase one alternative's matrix value on one criterion"). -/
def matrix_update {n m : ℕ} (M : Fin (n + 1) → Fin m → ℝ) (i0 : Fin (n + 1))
    (j0 : Fin m) (v : ℝ) : Fin (n + 1) → Fin m → ℝ :=
  fun r c => if r = i0 ∧ c = j0 then v else M r c

/-- From squares to values, for non-negative reals. -/
theorem le_of_sq_le_sq_of_nonneg {a b : ℝ} (ha : 0 ≤ a) (hb : 0 ≤ b)
    (h : a ^ 2 ≤ b ^ 2) : a ≤ b := by
  calc a = Real.sqrt (a ^ 2) := (Real.sqrt_sq ha).symm
  _ ≤ Real.sqrt (b ^ 2) := Real.sqrt_le_sqrt h
  _ = b := Real.sqrt_sq hb

/-- Subtracting a constant from a `sup'` pushes inside. -/
theorem sup'_sub_const {ι : Type} (s : Finset ι) (H : s.Nonempty)
    (f : ι → ℝ) (c : ℝ) :
    s.sup' H f - c = s.sup' H (fun k => f k - c) := by
  apply le_antisymm
  · rw [sub_le_iff_le_add]
    apply Finset.sup'_le
    intro b hb
    have h := Finset.le_sup' (fun k => f k - c) hb
    linarith
  · apply Finset.sup'_le
    intro b hb
    have h := Finset.le_sup' f hb
    linarith

/-- Subtracting an `inf'` from a constant turns it into a `sup'`. -/
theorem const_sub_inf' {ι : Type} (s : Finset ι) (H : s.Nonempty)
    (f : ι → ℝ) (c : ℝ) :
    c - s.inf' H f = s.sup' H (fun k => c - f k) := by
  apply le_antisymm
  · rcases Finset.exists_mem_eq_inf' H f with ⟨b, hb, he⟩
    rw [he]
    exact Finset.le_sup' (fun k => c - f k) hb
  · apply Finset.sup'_le
    intro b hb
    have h := Finset.inf'_le f hb
    linarith

/-- `sup'` is monotone in the function. -/
theorem sup'_mono_fun {ι : Type} (s : Finset ι) (H : s.Nonempty)
    {f g : ι → ℝ} (h : ∀ k ∈ s, f k ≤ g k) :
    s.sup' H f ≤ s.sup' H g := by
  apply Finset.sup'_le
  intro b hb
  exact le_trans (h b hb) (Finset.le_sup' g hb)

/-- Updating entry `(i0, j0)` leaves every other column untouched. -/
theorem matrix_update_col_ne {n m : ℕ} (M : Fin (n + 1) → Fin m → ℝ)
    (i0 : Fin (n + 1)) (j0 : Fin m) (v : ℝ) {j : Fin m} (hj : j ≠ j0)
    (r : Fin (n + 1)) : matrix_update M i0 j0 v r j = M r j := by
  unfold matrix_update
  rw [if_neg]
  rintro ⟨-, rfl⟩
  exact hj rfl

/-- The updated column `j0`, as a vector, is a `Function.update`. -/
theorem matrix_update_col_eq {n m : ℕ} (M : Fin (n + 1) → Fin m → ℝ)
    (i0 : Fin (n + 1)) (j0 : Fin m) (v : ℝ) :
    (fun i => matrix_update M i0 j0 v i j0)
      = Function.update (fun i => M i j0) i0 v := by
  funext i
  unfold matrix_update
  by_cases hi : i = i0
  · subst hi
    simp [Function.update]
  · simp [Function.update, hi]

/-- The squared column norm is the sum of squared entries. -/
theorem column_norm_sq {n m : ℕ} (M : Fin (n + 1) → Fin m → ℝ) (j : Fin m) :
    column_norm M j ^ 2 = ∑ i, M i j ^ 2 := by
  unfold column_norm
  exact Real.sq_sqrt (Finset.sum_nonneg fun i _ => sq_nonneg _)

/-- Raising one entry of the column raises the squared column norm by
exactly the difference of the squares. -/
theorem column_norm_sq_update {n m : ℕ} (M : Fin (n + 1) → Fin m → ℝ)
    (i0 : Fin (n + 1)) (j0 : Fin m) (v : ℝ) :
    column_norm (matrix_update M i0 j0 v) j0 ^ 2
      = column_norm M j0 ^ 2 + v ^ 2 - M i0 j0 ^ 2 := by
  rw [column_norm_sq, column_norm_sq]
  have hcol : ∀ i, matrix_update M i0 j0 v i j0
      = Function.update (fun r => M r j0) i0 v i :=
    fun i => congrFun (matrix_update_col_eq M i0 j0 v) i
  have hsq : ∀ i, (matrix_update M i0 j0 v i j0) ^ 2
      = Function.update (fun r => M r j0 ^ 2) i0 (v ^ 2) i := by
    intro i
    by_cases hi : i = i0
    · subst hi
      rw [hcol]
      simp [Function.update]
    · rw [hcol]
      simp [Function.update, hi]
  rw [Finset.sum_congr rfl fun i _ => hsq i,
    Finset.sum_update_of_mem (Finset.mem_univ i0)]
  have hsplit : ∑ i, M i j0 ^ 2
      = M i0 j0 ^ 2 + ∑ i ∈ Finset.univ \ {i0}, M i j0 ^ 2 := by
    rw [Finset.sum_eq_sum_diff_singleton_add (Finset.mem_univ i0)]
    ring
  rw [hsplit]
  ring

/-- The guarded column denominator is always positive. -/
theorem column_denom_pos {n m : ℕ} (M : Fin (n + 1) → Fin m → ℝ)
    (j : Fin m) : 0 < column_denom M j := by
  unfold column_denom
  by_cases h : column_norm M j = 0
  · simp [h]
  · rw [if_neg h]
    exact lt_of_le_of_ne (Real.sqrt_nonneg _) (Ne.symm h)

/-- A column of zero norm is identically zero. -/
theorem column_norm_eq_zero_iff {n m : ℕ} (M : Fin (n + 1) → Fin m → ℝ)
    (j : Fin m) (h : column_norm M j = 0) : ∀ i, M i j = 0 := by
  intro i
  have hsum : (∑ r, M r j ^ 2) = 0 := by
    have := column_norm_sq M j
    rw [h] at this
    simpa using this.symm
  have hz := (Finset.sum_eq_zero_iff_of_nonneg
    (fun r _ => sq_nonneg (M r j))).mp hsum i (Finset.mem_univ i)
  exact pow_eq_zero_iff two_ne_zero |>.mp hz

/-- Raising one non-negative entry does not shrink the column norm. -/
theorem column_norm_le_update {n m : ℕ} (M : Fin (n + 1) → Fin m → ℝ)
    (i0 : Fin (n + 1)) (j0 : Fin m) (v : ℝ) (h0 : 0 ≤ M i0 j0)
    (hv : M i0 j0 ≤ v) :
    column_norm M j0 ≤ column_norm (matrix_update M i0 j0 v) j0 := by
  have h2 : column_norm M j0 ^ 2
      ≤ column_norm (matrix_update M i0 j0 v) j0 ^ 2 := by
    rw [column_norm_sq_update]
    have := pow_le_pow_left₀ h0 hv 2
    linarith
  exact le_of_sq_le_sq_of_nonneg (Real.sqrt_nonneg _) (Real.sqrt_nonneg _) h2

/-- Raising entry `(i0, j0)` weakly lowers every OTHER weighted entry of
column `j0` (the column norm grows, the numerator is unchanged). -/
theorem weighted_update_other_le {n m : ℕ} (M : Fin (n + 1) → Fin m → ℝ)
    (w : Fin m → ℝ) (i0 : Fin (n + 1)) (j0 : Fin m) (v : ℝ)
    (hM0 : ∀ i, 0 ≤ M i j0) (hv : M i0 j0 ≤ v)
    (hwn : 0 ≤ weights_norm w j0) {k : Fin (n + 1)} (hk : k ≠ i0) :
    weighted_matrix (matrix_update M i0 j0 v) w k j0
      ≤ weighted_matrix M w k j0 := by
  have hentry : matrix_update M i0 j0 v k j0 = M k j0 := by
    unfold matrix_update
    rw [if_neg]
    rintro ⟨rfl, -⟩
    exact hk rfl
  unfold weighted_matrix normalized_matrix
  rw [hentry]
  by_cases hN : column_norm M j0 = 0
  · have hzero := column_norm_eq_zero_iff M j0 hN
    rw [hzero k]
    simp
  · have hNpos : 0 < column_norm M j0 :=
      lt_of_le_of_ne (Real.sqrt_nonneg _) (Ne.symm hN)
    have hle : column_norm M j0
        ≤ column_norm (matrix_update M i0 j0 v) j0 :=
      column_norm_le_update M i0 j0 v (hM0 i0) hv
    have hDM : column_denom M j0 = column_norm M j0 := if_neg hN
    have hN2pos : 0 < column_norm (matrix_update M i0 j0 v) j0 :=
      lt_of_lt_of_le hNpos hle
    have hDM2 : column_denom (matrix_update M i0 j0 v) j0
        = column_norm (matrix_update M i0 j0 v) j0 := if_neg hN2pos.ne'
    apply mul_le_mul_of_nonneg_right _ hwn
    rw [hDM, hDM2]
    exact div_le_div_of_nonneg_left (hM0 k) hNpos hle

/-- Raising entry `(i0, j0)` weakly raises alternative `i0`'s own weighted
entry of column `j0`. -/
theorem weighted_update_self_le {n m : ℕ} (M : Fin (n + 1) → Fin m → ℝ)
    (w : Fin m → ℝ) (i0 : Fin (n + 1)) (j0 : Fin m) (v : ℝ)
    (hM0 : ∀ i, 0 ≤ M i j0) (hv : M i0 j0 ≤ v)
    (hwn : 0 ≤ weights_norm w j0) :
    weighted_matrix M w i0 j0
      ≤ weighted_matrix (matrix_update M i0 j0 v) w i0 j0 := by
  have hentry : matrix_update M i0 j0 v i0 j0 = v := by
    unfold matrix_update
    rw [if_pos ⟨rfl, rfl⟩]
  unfold weighted_matrix normalized_matrix
  rw [hentry]
  apply mul_le_mul_of_nonneg_right _ hwn
  by_cases hN : column_norm M j0 = 0
  · have hzero := column_norm_eq_zero_iff M j0 hN
    rw [hzero i0]
    simp only [zero_div]
    exact div_nonneg (le_trans (hzero i0 ▸ hM0 i0) hv)
      (column_denom_pos _ _).le
  · have hNpos : 0 < column_norm M j0 :=
      lt_of_le_of_ne (Real.sqrt_nonneg _) (Ne.symm hN)
    have hle : column_norm M j0
        ≤ column_norm (matrix_update M i0 j0 v) j0 :=
      column_norm_le_update M i0 j0 v (hM0 i0) hv
    have hN2pos : 0 < column_norm (matrix_update M i0 j0 v) j0 :=
      lt_of_lt_of_le hNpos hle
    have hDM : column_denom M j0 = column_norm M j0 := if_neg hN
    have hDM2 : column_denom (matrix_update M i0 j0 v) j0
        = column_norm (matrix_update M i0 j0 v) j0 := if_neg hN2pos.ne'
    rw [hDM, hDM2, div_le_div_iff₀ hNpos hN2pos]
    have hvnn : 0 ≤ v := le_trans (hM0 i0) hv
    have hsq2 : (M i0 j0 * column_norm (matrix_update M i0 j0 v) j0) ^ 2
        ≤ (v * column_norm M j0) ^ 2 := by
      rw [mul_pow, mul_pow, column_norm_sq_update]
      have hx0N : M i0 j0 ^ 2 ≤ column_norm M j0 ^ 2 := by
        rw [column_norm_sq]
        exact Finset.single_le_sum (fun r _ => sq_nonneg (M r j0))
          (Finset.mem_univ i0)
      have hv2 : M i0 j0 ^ 2 ≤ v ^ 2 := pow_le_pow_left₀ (hM0 i0) hv 2
      nlinarith [mul_nonneg (sub_nonneg.mpr hv2) (sub_nonneg.mpr hx0N)]
    exact le_of_sq_le_sq_of_nonneg
      (mul_nonneg (hM0 i0) (Real.sqrt_nonneg _))
      (mul_nonneg hvnn (Real.sqrt_nonneg _)) hsq2

/-- If row `i0`'s entry grows while all other entries shrink, the squared
deviation from the column maximum shrinks. -/
theorem sq_dev_sup_le {n : ℕ} (u u' : Fin (n + 1) → ℝ) (i0 : Fin (n + 1))
    (h1 : ∀ k, k ≠ i0 → u' k ≤ u k) (h2 : u i0 ≤ u' i0) :
    (u' i0 - Finset.univ.sup' Finset.univ_nonempty u') ^ 2
      ≤ (u i0 - Finset.univ.sup' Finset.univ_nonempty u) ^ 2 := by
  have ha : 0 ≤ Finset.univ.sup' Finset.univ_nonempty u' - u' i0 := by
    have := Finset.le_sup' u' (Finset.mem_univ i0)
    linarith
  have hb : Finset.univ.sup' Finset.univ_nonempty u' - u' i0
      ≤ Finset.univ.sup' Finset.univ_nonempty u - u i0 := by
    rw [sup'_sub_const, sup'_sub_const]
    apply sup'_mono_fun
    intro k _
    by_cases hk : k = i0
    · subst hk
      simp
    · have := h1 k hk
      linarith
  calc (u' i0 - Finset.univ.sup' Finset.univ_nonempty u') ^ 2
      = (Finset.univ.sup' Finset.univ_nonempty u' - u' i0) ^ 2 := by ring
  _ ≤ (Finset.univ.sup' Finset.univ_nonempty u - u i0) ^ 2 :=
      pow_le_pow_left₀ ha hb 2
  _ = (u i0 - Finset.univ.sup' Finset.univ_nonempty u) ^ 2 := by ring

/-- If row `i0`'s entry grows while all other entries shrink, the squared
deviation from the column minimum grows. -/
theorem sq_dev_inf_ge {n : ℕ} (u u' : Fin (n + 1) → ℝ) (i0 : Fin (n + 1))
    (h1 : ∀ k, k ≠ i0 → u' k ≤ u k) (h2 : u i0 ≤ u' i0) :
    (u i0 - Finset.univ.inf' Finset.univ_nonempty u) ^ 2
      ≤ (u' i0 - Finset.univ.inf' Finset.univ_nonempty u') ^ 2 := by
  have ha : 0 ≤ u i0 - Finset.univ.inf' Finset.univ_nonempty u := by
    have := Finset.inf'_le u (Finset.mem_univ i0)
    linarith
  have hb : u i0 - Finset.univ.inf' Finset.univ_nonempty u
      ≤ u' i0 - Finset.univ.inf' Finset.univ_nonempty u' := by
    rw [const_sub_inf', const_sub_inf']
    apply sup'_mono_fun
    intro k _
    by_cases hk : k = i0
    · subst hk
      simp
    · have := h1 k hk
      linarith
  exact pow_le_pow_left₀ ha hb 2

/-- An untouched column has identical weighted entries after the update. -/
theorem weighted_eq_of_col_ne {n m : ℕ} (M : Fin (n + 1) → Fin m → ℝ)
    (w : Fin m → ℝ) (i0 : Fin (n + 1)) (j0 : Fin m) (v : ℝ) {j : Fin m}
    (hj : j ≠ j0) (k : Fin (n + 1)) :
    weighted_matrix (matrix_update M i0 j0 v) w k j
      = weighted_matrix M w k j := by
  have hcol : ∀ r, matrix_update M i0 j0 v r j = M r j :=
    matrix_update_col_ne M i0 j0 v hj
  have hnorm : column_norm (matrix_update M i0 j0 v) j = column_norm M j := by
    unfold column_norm
    congr 1
    exact Finset.sum_congr rfl fun r _ => by rw [hcol r]
  unfold weighted_matrix normalized_matrix column_denom
  rw [hcol k, hnorm]

/-- An untouched column keeps its ideal best value. -/
theorem ideal_best_eq_of_col_ne {n m : ℕ} (M : Fin (n + 1) → Fin m → ℝ)
    (w : Fin m → ℝ) (t : Fin m → ℕ) (i0 : Fin (n + 1)) (j0 : Fin m) (v : ℝ)
    {j : Fin m} (hj : j ≠ j0) :
    ideal_best (matrix_update M i0 j0 v) w t j = ideal_best M w t j := by
  have hfun : (fun i => weighted_matrix (matrix_update M i0 j0 v) w i j)
      = fun i => weighted_matrix M w i j :=
    funext fun k => weighted_eq_of_col_ne M w i0 j0 v hj k
  unfold ideal_best
  rw [hfun]

/-- An untouched column keeps its ideal worst value. -/
theorem ideal_worst_eq_of_col_ne {n m : ℕ} (M : Fin (n + 1) → Fin m → ℝ)
    (w : Fin m → ℝ) (t : Fin m → ℕ) (i0 : Fin (n + 1)) (j0 : Fin m) (v : ℝ)
    {j : Fin m} (hj : j ≠ j0) :
    ideal_worst (matrix_update M i0 j0 v) w t j = ideal_worst M w t j := by
  have hfun : (fun i => weighted_matrix (matrix_update M i0 j0 v) w i j)
      = fun i => weighted_matrix M w i j :=
    funext fun k => weighted_eq_of_col_ne M w i0 j0 v hj k
  unfold ideal_worst
  rw [hfun]

/-- How the two ideal-point distances of alternative `i0` move when its own
entry on criterion `j0` is raised: toward the ideal best and away from the
ideal worst for a beneficial criterion, the opposite for a cost one. -/
theorem distances_update_compare {n m : ℕ} (M : Fin (n + 1) → Fin m → ℝ)
    (w : Fin m → ℝ) (t : Fin m → ℕ) (i0 : Fin (n + 1)) (j0 : Fin m) (v : ℝ)
    (hM : ∀ i j, 0 ≤ M i j) (hv : M i0 j0 ≤ v)
    (hwn : 0 ≤ weights_norm w j0) :
    (t j0 = 1 →
      distance_to_best (matrix_update M i0 j0 v) w t i0
          ≤ distance_to_best M w t i0 ∧
      distance_to_worst M w t i0
          ≤ distance_to_worst (matrix_update M i0 j0 v) w t i0) ∧
    (t j0 ≠ 1 →
      distance_to_best M w t i0
          ≤ distance_to_best (matrix_update M i0 j0 v) w t i0 ∧
      distance_to_worst (matrix_update M i0 j0 v) w t i0
          ≤ distance_to_worst M w t i0) := by
  have hM0 : ∀ i, 0 ≤ M i j0 := fun i => hM i j0
  have h1 : ∀ k, k ≠ i0 →
      weighted_matrix (matrix_update M i0 j0 v) w k j0
        ≤ weighted_matrix M w k j0 :=
    fun k hk => weighted_update_other_le M w i0 j0 v hM0 hv hwn hk
  have h2 : weighted_matrix M w i0 j0
      ≤ weighted_matrix (matrix_update M i0 j0 v) w i0 j0 :=
    weighted_update_self_le M w i0 j0 v hM0 hv hwn
  constructor
  · intro ht
    constructor
    · unfold distance_to_best
      apply Real.sqrt_le_sqrt
      apply Finset.sum_le_sum
      intro j _
      by_cases hj : j = j0
      · subst hj
        unfold ideal_best
        rw [if_pos ht, if_pos ht]
        exact sq_dev_sup_le _ _ i0 h1 h2
      · rw [weighted_eq_of_col_ne M w i0 j0 v hj i0,
          ideal_best_eq_of_col_ne M w t i0 j0 v hj]
    · unfold distance_to_worst
      apply Real.sqrt_le_sqrt
      apply Finset.sum_le_sum
      intro j _
      by_cases hj : j = j0
      · subst hj
        unfold ideal_worst
        rw [if_pos ht, if_pos ht]
        exact sq_dev_inf_ge _ _ i0 h1 h2
      · rw [weighted_eq_of_col_ne M w i0 j0 v hj i0,
          ideal_worst_eq_of_col_ne M w t i0 j0 v hj]
  · intro ht
    constructor
    · unfold distance_to_best
      apply Real.sqrt_le_sqrt
      apply Finset.sum_le_sum
      intro j _
      by_cases hj : j = j0
      · subst hj
        unfold ideal_best
        rw [if_neg ht, if_neg ht]
        exact sq_dev_inf_ge _ _ i0 h1 h2
      · rw [weighted_eq_of_col_ne M w i0 j0 v hj i0,
          ideal_best_eq_of_col_ne M w t i0 j0 v hj]
    · unfold distance_to_worst
      apply Real.sqrt_le_sqrt
      apply Finset.sum_le_sum
      intro j _
      by_cases hj : j = j0
      · subst hj
        unfold ideal_worst
        rw [if_neg ht, if_neg ht]
        exact sq_dev_sup_le _ _ i0 h1 h2
      · rw [weighted_eq_of_col_ne M w i0 j0 v hj i0,
          ideal_worst_eq_of_col_ne M w t i0 j0 v hj]

/-- Monotonicity of the guarded standard proximity ratio: a smaller
distance-to-best and a larger distance-to-worst never lower the
coefficient. -/
theorem prox_ratio_mono (a b c d : ℝ) (hc : 0 ≤ c) (hb : 0 ≤ b)
    (hca : c ≤ a) (hbd : b ≤ d) :
    b / (if a + b = 0 then 1 / 10 ^ 10 else a + b)
      ≤ d / (if c + d = 0 then 1 / 10 ^ 10 else c + d) := by
  have ha : 0 ≤ a := hc.trans hca
  have hd : 0 ≤ d := hb.trans hbd
  by_cases h1 : a + b = 0
  · have hb0 : b = 0 := by linarith
    rw [if_pos h1, hb0, zero_div]
    by_cases h2 : c + d = 0
    · rw [if_pos h2]
      positivity
    · have hcd : 0 < c + d := lt_of_le_of_ne (by linarith) (Ne.symm h2)
      rw [if_neg h2]
      positivity
  · have hab : 0 < a + b := lt_of_le_of_ne (by linarith) (Ne.symm h1)
    rw [if_neg h1]
    by_cases h2 : c + d = 0
    · have hd0 : d = 0 := by linarith
      have hb0 : b = 0 := le_antisymm (hd0 ▸ hbd) hb
      rw [if_pos h2, hb0, hd0, zero_div, zero_div]
    · have hcd : 0 < c + d := lt_of_le_of_ne (by linarith) (Ne.symm h2)
      rw [if_neg h2, div_le_div_iff₀ hab hcd]
      nlinarith [mul_le_mul hbd hca hc hd]

/-- C7, amended (standard formula): for every valid input (non-negative
matrix, non-negative weights of positive sum) and every strict increase of
entry `(i0, j0)`, under the STANDARD proximity formula alternative `i0`'s
coefficient never decreases when criterion `j0` is beneficial (`t j0 = 1`)
and never increases when it is a cost criterion (`t j0 = 0`).  (The variant
formula does not satisfy this; see the counterexample.) -/
theorem standard_proximity_monotone {n m : ℕ}
    (M : Fin (n + 1) → Fin m → ℝ) (w : Fin m → ℝ) (t : Fin m → ℕ)
    (i0 : Fin (n + 1)) (j0 : Fin m) (v : ℝ)
    (hM : ∀ i j, 0 ≤ M i j) (hw : ∀ j, 0 ≤ w j) (hws : 0 < ∑ k, w k)
    (hv : M i0 j0 < v) :
    (t j0 = 1 →
      proximity_standard M w t i0
        ≤ proximity_standard (matrix_update M i0 j0 v) w t i0) ∧
    (t j0 = 0 →
      proximity_standard (matrix_update M i0 j0 v) w t i0
        ≤ proximity_standard M w t i0) := by
  have hwn : 0 ≤ weights_norm w j0 := div_nonneg (hw j0) hws.le
  have hD := distances_update_compare M w t i0 j0 v hM hv.le hwn
  constructor
  · intro ht
    obtain ⟨hEp, hEm⟩ := hD.1 ht
    unfold proximity_standard
    exact prox_ratio_mono (distance_to_best M w t i0)
      (distance_to_worst M w t i0)
      (distance_to_best (matrix_update M i0 j0 v) w t i0)
      (distance_to_worst (matrix_update M i0 j0 v) w t i0)
      (Real.sqrt_nonneg _) (Real.sqrt_nonneg _) hEp hEm
  · intro ht
    have ht1 : t j0 ≠ 1 := by
      rw [ht]
      exact one_ne_zero ∘ Eq.symm
    obtain ⟨hEp, hEm⟩ := hD.2 ht1
    unfold proximity_standard
    exact prox_ratio_mono
      (distance_to_best (matrix_update M i0 j0 v) w t i0)
      (distance_to_worst (matrix_update M i0 j0 v) w t i0)
      (distance_to_best M w t i0) (distance_to_worst M w t i0)
      (Real.sqrt_nonneg _) (Real.sqrt_nonneg _) hEp hEm

/-- A `sup'` equals any member value that bounds all others. -/
theorem sup'_eq_of_le {ι : Type} (s : Finset ι) (H : s.Nonempty)
    (f : ι → ℝ) (b : ι) (hb : b ∈ s) (hmax : ∀ k ∈ s, f k ≤ f b) :
    s.sup' H f = f b :=
  le_antisymm (Finset.sup'_le H f hmax) (Finset.le_sup' f hb)

/-- An `inf'` equals any member value bounded by all others. -/
theorem inf'_eq_of_le {ι : Type} (s : Finset ι) (H : s.Nonempty)
    (f : ι → ℝ) (b : ι) (hb : b ∈ s) (hmin : ∀ k ∈ s, f b ≤ f k) :
    s.inf' H f = f b :=
  le_antisymm (Finset.inf'_le f hb) (Finset.le_inf' H f hmin)

/-- The 3×2 decision matrix of the variant-formula counterexample. -/
def varM : Fin 3 → Fin 2 → ℝ := ![![0, 0], ![0, 3], ![0, 4]]

/-- Its weight vector `[1, 4]`. -/
def varW : Fin 2 → ℝ := ![1, 4]

/-- Its criteria types: criterion 0 is cost, criterion 1 beneficial. -/
def varT : Fin 2 → ℕ := ![0, 1]


/-- Case analysis over the three alternatives of the counterexample. -/
theorem forall_fin3 {P : Fin 3 → Prop} (h0 : P 0) (h1 : P 1) (h2 : P 2) :
    ∀ k : Fin 3, P k := by
  intro k
  rcases k with ⟨kv, hk⟩
  interval_cases kv
  · exact h0
  · exact h1
  · exact h2

/-- C7, counterexample: under the VARIANT formula, raising alternative 2's
value on the COST criterion 0 of `varM` from `0` to `1` RAISES its
proximity coefficient from `1/3` to `64/65`, so the claimed monotonicity
(a cost-criterion increase never increases the coefficient) fails for the
variant formula.  All pipeline square roots in this instance are rational,
so both runs evaluate exactly. -/
theorem variant_formula_not_monotone :
    varT 0 = 0 ∧ varM 2 0 < 1 ∧
      (proximity_variant varM varW varT).map (fun S => S 2)
          = some (1 / 3) ∧
      (proximity_variant (matrix_update varM 2 0 1) varW varT).map
          (fun S => S 2) = some (64 / 65) ∧
      (1 / 3 : ℝ) < 64 / 65 := by
  -- weights
  have hsumW : ∑ k, varW k = 5 := by norm_num [Fin.sum_univ_two, varW]
  have hwn0 : weights_norm varW 0 = 1 / 5 := by
    unfold weights_norm
    rw [hsumW]
    norm_num [varW]
  have hwn1 : weights_norm varW 1 = 4 / 5 := by
    unfold weights_norm
    rw [hsumW]
    norm_num [varW]
  -- original matrix: columns
  have hn00 : column_norm varM 0 = 0 := by
    unfold column_norm
    rw [show (∑ i, varM i 0 ^ 2) = 0 by
      norm_num [Fin.sum_univ_three, varM]]
    exact Real.sqrt_zero
  have hn01 : column_norm varM 1 = 5 := by
    unfold column_norm
    rw [show (∑ i, varM i 1 ^ 2) = 5 ^ 2 by
      norm_num [Fin.sum_univ_three, varM]]
    exact Real.sqrt_sq (by norm_num)
  have hdd0 : column_denom varM 0 = 1 := by
    unfold column_denom
    rw [hn00]
    simp
  have hdd1 : column_denom varM 1 = 5 := by
    unfold column_denom
    rw [hn01]
    norm_num
  -- original matrix: weighted entries
  have hva : ∀ k, weighted_matrix varM varW k 0 = 0 := by
    intro k
    unfold weighted_matrix normalized_matrix
    rw [hdd0, hwn0]
    rcases k with ⟨kv, hk⟩
    interval_cases kv <;> norm_num [varM]
  have hvb0 : weighted_matrix varM varW 0 1 = 0 := by
    unfold weighted_matrix normalized_matrix
    rw [hdd1, hwn1]
    norm_num [varM]
  have hvb1 : weighted_matrix varM varW 1 1 = 12 / 25 := by
    unfold weighted_matrix normalized_matrix
    rw [hdd1, hwn1]
    norm_num [varM]
  have hvb2 : weighted_matrix varM varW 2 1 = 16 / 25 := by
    unfold weighted_matrix normalized_matrix
    rw [hdd1, hwn1]
    norm_num [varM]
  -- original matrix: ideal points
  have hib0 : ideal_best varM varW varT 0 = 0 := by
    unfold ideal_best
    rw [if_neg (by decide : ¬ varT 0 = 1)]
    exact (inf'_eq_of_le Finset.univ Finset.univ_nonempty
      (fun i => weighted_matrix varM varW i 0) 0 (Finset.mem_univ _)
      (fun k _ => by
        show weighted_matrix varM varW 0 0 ≤ weighted_matrix varM varW k 0
        rw [hva k, hva 0])).trans (hva 0)
  have hiw0 : ideal_worst varM varW varT 0 = 0 := by
    unfold ideal_worst
    rw [if_neg (by decide : ¬ varT 0 = 1)]
    exact (sup'_eq_of_le Finset.univ Finset.univ_nonempty
      (fun i => weighted_matrix varM varW i 0) 0 (Finset.mem_univ _)
      (fun k _ => by
        show weighted_matrix varM varW k 0 ≤ weighted_matrix varM varW 0 0
        rw [hva k, hva 0])).trans (hva 0)
  have hib1 : ideal_best varM varW varT 1 = 16 / 25 := by
    unfold ideal_best
    rw [if_pos (by decide : varT 1 = 1)]
    refine (sup'_eq_of_le Finset.univ Finset.univ_nonempty
      (fun i => weighted_matrix varM varW i 1) 2 (Finset.mem_univ _)
      (fun k _ => @forall_fin3
        (fun i => weighted_matrix varM varW i 1
          ≤ weighted_matrix varM varW 2 1)
        (by show weighted_matrix varM varW 0 1
              ≤ weighted_matrix varM varW 2 1
            rw [hvb0, hvb2]
            norm_num)
        (by show weighted_matrix varM varW 1 1
              ≤ weighted_matrix varM varW 2 1
            rw [hvb1, hvb2]
            norm_num)
        le_rfl k)).trans hvb2
  have hiw1 : ideal_worst varM varW varT 1 = 0 := by
    unfold ideal_worst
    rw [if_pos (by decide : varT 1 = 1)]
    refine (inf'_eq_of_le Finset.univ Finset.univ_nonempty
      (fun i => weighted_matrix varM varW i 1) 0 (Finset.mem_univ _)
      (fun k _ => @forall_fin3
        (fun i => weighted_matrix varM varW 0 1
          ≤ weighted_matrix varM varW i 1)
        le_rfl
        (by show weighted_matrix varM varW 0 1
              ≤ weighted_matrix varM varW 1 1
            rw [hvb0, hvb1]
            norm_num)
        (by show weighted_matrix varM varW 0 1
              ≤ weighted_matrix varM varW 2 1
            rw [hvb0, hvb2]
            norm_num) k)).trans hvb0
  -- original matrix: distances
  have hB0 : distance_to_best varM varW varT 0 = 16 / 25 := by
    unfold distance_to_best
    rw [Fin.sum_univ_two, hva 0, hvb0, hib0, hib1,
      show ((0:ℝ) - 0) ^ 2 + (0 - 16 / 25) ^ 2 = (16 / 25) ^ 2 by norm_num]
    exact Real.sqrt_sq (by norm_num)
  have hB1 : distance_to_best varM varW varT 1 = 4 / 25 := by
    unfold distance_to_best
    rw [Fin.sum_univ_two, hva 1, hvb1, hib0, hib1,
      show ((0:ℝ) - 0) ^ 2 + (12 / 25 - 16 / 25) ^ 2 = (4 / 25) ^ 2 by
        norm_num]
    exact Real.sqrt_sq (by norm_num)
  have hB2 : distance_to_best varM varW varT 2 = 0 := by
    unfold distance_to_best
    rw [Fin.sum_univ_two, hva 2, hvb2, hib0, hib1,
      show ((0:ℝ) - 0) ^ 2 + (16 / 25 - 16 / 25) ^ 2 = 0 by norm_num]
    exact Real.sqrt_zero
  have hworst0 : distance_to_worst varM varW varT 0 = 0 := by
    unfold distance_to_worst
    rw [Fin.sum_univ_two, hva 0, hvb0, hiw0, hiw1,
      show ((0:ℝ) - 0) ^ 2 + (0 - 0) ^ 2 = 0 by norm_num]
    exact Real.sqrt_zero
  have hworst1 : distance_to_worst varM varW varT 1 = 12 / 25 := by
    unfold distance_to_worst
    rw [Fin.sum_univ_two, hva 1, hvb1, hiw0, hiw1,
      show ((0:ℝ) - 0) ^ 2 + (12 / 25 - 0) ^ 2 = (12 / 25) ^ 2 by norm_num]
    exact Real.sqrt_sq (by norm_num)
  have hworst2 : distance_to_worst varM varW varT 2 = 16 / 25 := by
    unfold distance_to_worst
    rw [Fin.sum_univ_two, hva 2, hvb2, hiw0, hiw1,
      show ((0:ℝ) - 0) ^ 2 + (16 / 25 - 0) ^ 2 = (16 / 25) ^ 2 by norm_num]
    exact Real.sqrt_sq (by norm_num)
  -- original matrix: raw variant ratios
  have hsupB : Finset.univ.sup' Finset.univ_nonempty
      (fun k => distance_to_best varM varW varT k) = 16 / 25 :=
    (sup'_eq_of_le Finset.univ Finset.univ_nonempty
      (fun k => distance_to_best varM varW varT k) 0 (Finset.mem_univ _)
      (fun k _ => @forall_fin3
        (fun i => distance_to_best varM varW varT i
          ≤ distance_to_best varM varW varT 0)
        le_rfl
        (by show distance_to_best varM varW varT 1
              ≤ distance_to_best varM varW varT 0
            rw [hB1, hB0]
            norm_num)
        (by show distance_to_best varM varW varT 2
              ≤ distance_to_best varM varW varT 0
            rw [hB2, hB0]
            norm_num) k)).trans hB0
  have hr0 : variant_raw varM varW varT 0 = 0 := by
    unfold variant_raw
    rw [hB0, hworst0]
    norm_num
  have hr1 : variant_raw varM varW varT 1 = 3 := by
    unfold variant_raw
    rw [hB1, hworst1]
    norm_num
  have hr2 : variant_raw varM varW varT 2 = 1 := by
    unfold variant_raw
    rw [hB2, hworst2, hsupB]
    norm_num
  have hsupr : Finset.univ.sup' Finset.univ_nonempty
      (variant_raw varM varW varT) = 3 :=
    (sup'_eq_of_le Finset.univ Finset.univ_nonempty
      (variant_raw varM varW varT) 1 (Finset.mem_univ _)
      (fun k _ => @forall_fin3
        (fun i => variant_raw varM varW varT i ≤ variant_raw varM varW varT 1)
        (by show variant_raw varM varW varT 0 ≤ variant_raw varM varW varT 1
            rw [hr0, hr1]
            norm_num)
        le_rfl
        (by show variant_raw varM varW varT 2 ≤ variant_raw varM varW varT 1
            rw [hr2, hr1]
            norm_num) k)).trans hr1
  have hfin0 : (proximity_variant varM varW varT).map (fun S => S 2)
      = some (1 / 3) := by
    unfold proximity_variant
    rw [hsupr, if_pos (by norm_num : (3:ℝ) ≠ 0)]
    show some (variant_raw varM varW varT 2 / 3) = some ((1:ℝ) / 3)
    rw [hr2]
  refine ⟨by decide, zero_lt_one, hfin0, ?_, by norm_num⟩
  -- updated matrix
  have hu00 : matrix_update varM 2 0 1 0 0 = 0 := by
    unfold matrix_update
    rw [if_neg (by decide)]
    norm_num [varM]
  have hu10 : matrix_update varM 2 0 1 1 0 = 0 := by
    unfold matrix_update
    rw [if_neg (by decide)]
    norm_num [varM]
  have hu20 : matrix_update varM 2 0 1 2 0 = 1 := by
    unfold matrix_update
    rw [if_pos ⟨rfl, rfl⟩]
  have hn10 : column_norm (matrix_update varM 2 0 1) 0 = 1 := by
    unfold column_norm
    rw [show (∑ i, matrix_update varM 2 0 1 i 0 ^ 2) = 1 ^ 2 by
      rw [Fin.sum_univ_three, hu00, hu10, hu20]; norm_num]
    exact Real.sqrt_sq (by norm_num)
  have hdd10 : column_denom (matrix_update varM 2 0 1) 0 = 1 := by
    unfold column_denom
    rw [hn10]
    norm_num
  -- updated matrix: weighted entries, column 0
  have h1a0 : weighted_matrix (matrix_update varM 2 0 1) varW 0 0 = 0 := by
    unfold weighted_matrix normalized_matrix
    rw [hdd10, hwn0, hu00]
    norm_num
  have h1a1 : weighted_matrix (matrix_update varM 2 0 1) varW 1 0 = 0 := by
    unfold weighted_matrix normalized_matrix
    rw [hdd10, hwn0, hu10]
    norm_num
  have h1a2 : weighted_matrix (matrix_update varM 2 0 1) varW 2 0
      = 1 / 5 := by
    unfold weighted_matrix normalized_matrix
    rw [hdd10, hwn0, hu20]
    norm_num
  -- updated matrix: weighted entries, column 1 (untouched)
  have h1b0 : weighted_matrix (matrix_update varM 2 0 1) varW 0 1 = 0 := by
    rw [weighted_eq_of_col_ne varM varW 2 0 1 (by decide) 0]
    exact hvb0
  have h1b1 : weighted_matrix (matrix_update varM 2 0 1) varW 1 1
      = 12 / 25 := by
    rw [weighted_eq_of_col_ne varM varW 2 0 1 (by decide) 1]
    exact hvb1
  have h1b2 : weighted_matrix (matrix_update varM 2 0 1) varW 2 1
      = 16 / 25 := by
    rw [weighted_eq_of_col_ne varM varW 2 0 1 (by decide) 2]
    exact hvb2
  -- updated matrix: ideal points
  have h1ib0 : ideal_best (matrix_update varM 2 0 1) varW varT 0 = 0 := by
    unfold ideal_best
    rw [if_neg (by decide : ¬ varT 0 = 1)]
    exact (inf'_eq_of_le Finset.univ Finset.univ_nonempty
      (fun i => weighted_matrix (matrix_update varM 2 0 1) varW i 0) 0
      (Finset.mem_univ _)
      (fun k _ => @forall_fin3
        (fun i => weighted_matrix (matrix_update varM 2 0 1) varW 0 0
          ≤ weighted_matrix (matrix_update varM 2 0 1) varW i 0)
        le_rfl
        (by show weighted_matrix (matrix_update varM 2 0 1) varW 0 0
              ≤ weighted_matrix (matrix_update varM 2 0 1) varW 1 0
            rw [h1a0, h1a1])
        (by show weighted_matrix (matrix_update varM 2 0 1) varW 0 0
              ≤ weighted_matrix (matrix_update varM 2 0 1) varW 2 0
            rw [h1a0, h1a2]
            norm_num) k)).trans h1a0
  have h1iw0 : ideal_worst (matrix_update varM 2 0 1) varW varT 0
      = 1 / 5 := by
    unfold ideal_worst
    rw [if_neg (by decide : ¬ varT 0 = 1)]
    exact (sup'_eq_of_le Finset.univ Finset.univ_nonempty
      (fun i => weighted_matrix (matrix_update varM 2 0 1) varW i 0) 2
      (Finset.mem_univ _)
      (fun k _ => @forall_fin3
        (fun i => weighted_matrix (matrix_update varM 2 0 1) varW i 0
          ≤ weighted_matrix (matrix_update varM 2 0 1) varW 2 0)
        (by show weighted_matrix (matrix_update varM 2 0 1) varW 0 0
              ≤ weighted_matrix (matrix_update varM 2 0 1) varW 2 0
            rw [h1a0, h1a2]
            norm_num)
        (by show weighted_matrix (matrix_update varM 2 0 1) varW 1 0
              ≤ weighted_matrix (matrix_update varM 2 0 1) varW 2 0
            rw [h1a1, h1a2]
            norm_num)
        le_rfl k)).trans h1a2
  have h1ib1 : ideal_best (matrix_update varM 2 0 1) varW varT 1
      = 16 / 25 := by
    rw [ideal_best_eq_of_col_ne varM varW varT 2 0 1 (by decide)]
    exact hib1
  have h1iw1 : ideal_worst (matrix_update varM 2 0 1) varW varT 1 = 0 := by
    rw [ideal_worst_eq_of_col_ne varM varW varT 2 0 1 (by decide)]
    exact hiw1
  -- updated matrix: distances
  have hB'0 : distance_to_best (matrix_update varM 2 0 1) varW varT 0
      = 16 / 25 := by
    unfold distance_to_best
    rw [Fin.sum_univ_two, h1a0, h1b0, h1ib0, h1ib1,
      show ((0:ℝ) - 0) ^ 2 + (0 - 16 / 25) ^ 2 = (16 / 25) ^ 2 by norm_num]
    exact Real.sqrt_sq (by norm_num)
  have hB'1 : distance_to_best (matrix_update varM 2 0 1) varW varT 1
      = 4 / 25 := by
    unfold distance_to_best
    rw [Fin.sum_univ_two, h1a1, h1b1, h1ib0, h1ib1,
      show ((0:ℝ) - 0) ^ 2 + (12 / 25 - 16 / 25) ^ 2 = (4 / 25) ^ 2 by
        norm_num]
    exact Real.sqrt_sq (by norm_num)
  have hB'2 : distance_to_best (matrix_update varM 2 0 1) varW varT 2
      = 1 / 5 := by
    unfold distance_to_best
    rw [Fin.sum_univ_two, h1a2, h1b2, h1ib0, h1ib1,
      show ((1:ℝ) / 5 - 0) ^ 2 + (16 / 25 - 16 / 25) ^ 2 = (1 / 5) ^ 2 by
        norm_num]
    exact Real.sqrt_sq (by norm_num)
  have hW'0 : distance_to_worst (matrix_update varM 2 0 1) varW varT 0
      = 1 / 5 := by
    unfold distance_to_worst
    rw [Fin.sum_univ_two, h1a0, h1b0, h1iw0, h1iw1,
      show ((0:ℝ) - 1 / 5) ^ 2 + (0 - 0) ^ 2 = (1 / 5) ^ 2 by norm_num]
    exact Real.sqrt_sq (by norm_num)
  have hW'1 : distance_to_worst (matrix_update varM 2 0 1) varW varT 1
      = 13 / 25 := by
    unfold distance_to_worst
    rw [Fin.sum_univ_two, h1a1, h1b1, h1iw0, h1iw1,
      show ((0:ℝ) - 1 / 5) ^ 2 + (12 / 25 - 0) ^ 2 = (13 / 25) ^ 2 by
        norm_num]
    exact Real.sqrt_sq (by norm_num)
  have hW'2 : distance_to_worst (matrix_update varM 2 0 1) varW varT 2
      = 16 / 25 := by
    unfold distance_to_worst
    rw [Fin.sum_univ_two, h1a2, h1b2, h1iw0, h1iw1,
      show ((1:ℝ) / 5 - 1 / 5) ^ 2 + (16 / 25 - 0) ^ 2 = (16 / 25) ^ 2 by
        norm_num]
    exact Real.sqrt_sq (by norm_num)
  -- updated matrix: raw variant ratios
  have hsupB' : Finset.univ.sup' Finset.univ_nonempty
      (fun k => distance_to_best (matrix_update varM 2 0 1) varW varT k)
      = 16 / 25 :=
    (sup'_eq_of_le Finset.univ Finset.univ_nonempty
      (fun k => distance_to_best (matrix_update varM 2 0 1) varW varT k) 0
      (Finset.mem_univ _)
      (fun k _ => @forall_fin3
        (fun i => distance_to_best (matrix_update varM 2 0 1) varW varT i
          ≤ distance_to_best (matrix_update varM 2 0 1) varW varT 0)
        le_rfl
        (by show distance_to_best (matrix_update varM 2 0 1) varW varT 1
              ≤ distance_to_best (matrix_update varM 2 0 1) varW varT 0
            rw [hB'1, hB'0]
            norm_num)
        (by show distance_to_best (matrix_update varM 2 0 1) varW varT 2
              ≤ distance_to_best (matrix_update varM 2 0 1) varW varT 0
            rw [hB'2, hB'0]
            norm_num) k)).trans hB'0
  have hr'0 : variant_raw (matrix_update varM 2 0 1) varW varT 0
      = 5 / 16 := by
    unfold variant_raw
    rw [hB'0, hW'0]
    norm_num
  have hr'1 : variant_raw (matrix_update varM 2 0 1) varW varT 1
      = 13 / 4 := by
    unfold variant_raw
    rw [hB'1, hW'1]
    norm_num
  have hr'2 : variant_raw (matrix_update varM 2 0 1) varW varT 2
      = 16 / 5 := by
    unfold variant_raw
    rw [hB'2, hW'2]
    norm_num
  have hsupr' : Finset.univ.sup' Finset.univ_nonempty
      (variant_raw (matrix_update varM 2 0 1) varW varT) = 13 / 4 :=
    (sup'_eq_of_le Finset.univ Finset.univ_nonempty
      (variant_raw (matrix_update varM 2 0 1) varW varT) 1
      (Finset.mem_univ _)
      (fun k _ => @forall_fin3
        (fun i => variant_raw (matrix_update varM 2 0 1) varW varT i
          ≤ variant_raw (matrix_update varM 2 0 1) varW varT 1)
        (by show variant_raw (matrix_update varM 2 0 1) varW varT 0
              ≤ variant_raw (matrix_update varM 2 0 1) varW varT 1
            rw [hr'0, hr'1]
            norm_num)
        le_rfl
        (by show variant_raw (matrix_update varM 2 0 1) varW varT 2
              ≤ variant_raw (matrix_update varM 2 0 1) varW varT 1
            rw [hr'2, hr'1]
            norm_num) k)).trans hr'1
  unfold proximity_variant
  rw [hsupr', if_pos (by norm_num : (13:ℝ) / 4 ≠ 0)]
  show some (variant_raw (matrix_update varM 2 0 1) varW varT 2 / (13 / 4))
      = some ((64:ℝ) / 65)
  rw [hr'2]
  norm_num

/-- C7, concrete instance of the amended theorem: the all-ones 2×1 matrix
with weight `[1]`, entry `(0, 0)` raised from `1` to `2`. -/
theorem standard_proximity_monotone_witness :
    (exT 0 = 1 →
      proximity_standard exM exW exT 0
        ≤ proximity_standard (matrix_update exM 0 0 2) exW exT 0) ∧
    (exT 0 = 0 →
      proximity_standard (matrix_update exM 0 0 2) exW exT 0
        ≤ proximity_standard exM exW exT 0) :=
  standard_proximity_monotone exM exW exT 0 0 2
    (fun _ _ => zero_le_one) (fun _ => zero_le_one) (by simp [exW])
    (by norm_num [exM])

/-! ## optimal_assignment.py: the assignment solvers

`OptimalAssignment` works on a `p × q` matrix of TOPSIS scores (activities
× profiles).  `solve_hungarian` (lines 49-91) delegates the optimization to
`scipy.optimize.linear_sum_assignment` on the negated matrix;
`solve_greedy` (lines 93-144) sorts all (activity, profile, score) triples
by score descending and commits each pair whose activity and profile are
both still free. -/

/-- The total score of a 1-to-1 assignment (permutation) on a square
score matrix. -/
def assignmentTotal {p : ℕ} (score : Fin p → Fin p → ℚ)
    (σ : Equiv.Perm (Fin p)) : ℚ :=
  ∑ i, score i (σ i)

/-- Modelled from the spec: `scipy.optimize.linear_sum_assignment`, whose
code is not part of this repository, is specified to return a perfect
matching of minimum total cost; `solve_hungarian` negates the score matrix
first, so its total score is the MAXIMUM of `assignmentTotal` over all
permutations. -/
def hungarianTotal {p : ℕ} (score : Fin p → Fin p → ℚ) : ℚ :=
  Finset.univ.sup' ⟨1, Finset.mem_univ 1⟩ (assignmentTotal score)

/-- Lines 105-111: all (activity, profile) pairs, activity-major. -/
def allPairs (p q : ℕ) : List (Fin p × Fin q) :=
  (List.finRange p).flatMap
    (fun a => (List.finRange q).map (fun b => (a, b)))

/-- Line 113: the sort key — descending by score (Python's sort is stable,
as is the sort used here, so the embedding matches the source's order). -/
def greedyRel {p q : ℕ} (score : Fin p → Fin q → ℚ)
    (c d : Fin p × Fin q) : Prop :=
  score d.1 d.2 ≤ score c.1 c.2

instance {p q : ℕ} (score : Fin p → Fin q → ℚ) :
    DecidableRel (greedyRel score) := fun c d => by
  unfold greedyRel
  infer_instance

/-- Lines 117-131, one loop iteration: commit the candidate pair when
neither its activity nor its profile is already assigned. -/
def greedyStep {p q : ℕ} (st : List (Fin p × Fin q))
    (c : Fin p × Fin q) : List (Fin p × Fin q) :=
  if c.1 ∉ st.map Prod.fst ∧ c.2 ∉ st.map Prod.snd then st ++ [c] else st

/-- `solve_greedy` (lines 93-144): the list of committed pairs, in the
order they are assigned.  (The source's early `break` once every activity
is assigned does not change the result: once every activity is assigned no
further candidate passes the guard.) -/
def greedyPairs {p q : ℕ} (score : Fin p → Fin q → ℚ) :
    List (Fin p × Fin q) :=
  (List.insertionSort (greedyRel score) (allPairs p q)).foldl greedyStep []

/-- `solve_greedy`'s `total_score`. -/
def greedyTotal {p q : ℕ} (score : Fin p → Fin q → ℚ) : ℚ :=
  ((greedyPairs score).map (fun c => score c.1 c.2)).sum

/-- Every pair occurs in the candidate list. -/
theorem mem_allPairs {p q : ℕ} (c : Fin p × Fin q) : c ∈ allPairs p q := by
  rcases c with ⟨a, b⟩
  simp [allPairs, List.mem_flatMap]

/-- The greedy state only grows. -/
theorem greedy_mem_mono {p q : ℕ} (L : List (Fin p × Fin q)) :
    ∀ (st : List (Fin p × Fin q)) (x : Fin p × Fin q), x ∈ st →
      x ∈ L.foldl greedyStep st := by
  induction L with
  | nil => exact fun st x hx => hx
  | cons c t ih =>
      intro st x hx
      apply ih
      unfold greedyStep
      split
      · exact List.mem_append_left _ hx
      · exact hx

/-- Every pair in the final greedy state came from the state or the list. -/
theorem greedy_mem_src {p q : ℕ} (L : List (Fin p × Fin q)) :
    ∀ (st : List (Fin p × Fin q)) (x : Fin p × Fin q),
      x ∈ L.foldl greedyStep st → x ∈ st ∨ x ∈ L := by
  induction L with
  | nil => exact fun st x hx => Or.inl hx
  | cons c t ih =>
      intro st x hx
      rcases ih (greedyStep st c) x hx with h | h
      · unfold greedyStep at h
        split at h
        · rcases List.mem_append.mp h with h1 | h1
          · exact Or.inl h1
          · exact Or.inr (List.mem_cons.mpr (Or.inl (List.mem_singleton.mp h1)))
        · exact Or.inl h
      · exact Or.inr (List.mem_cons_of_mem c h)

/-- One greedy step preserves distinctness of both projections. -/
theorem greedyStep_nodup {p q : ℕ} (st : List (Fin p × Fin q))
    (c : Fin p × Fin q)
    (h : (st.map Prod.fst).Nodup ∧ (st.map Prod.snd).Nodup) :
    ((greedyStep st c).map Prod.fst).Nodup ∧
      ((greedyStep st c).map Prod.snd).Nodup := by
  unfold greedyStep
  split
  · rename_i hg
    rw [List.map_append, List.map_append]
    constructor
    · exact List.nodup_append.mpr
        ⟨h.1, List.nodup_singleton _,
          fun a ha hb => hg.1 ((List.mem_singleton.mp hb) ▸ ha)⟩
    · exact List.nodup_append.mpr
        ⟨h.2, List.nodup_singleton _,
          fun a ha hb => hg.2 ((List.mem_singleton.mp hb) ▸ ha)⟩
  · exact h

/-- The whole greedy fold preserves distinctness of both projections. -/
theorem greedy_fold_nodup {p q : ℕ} (L : List (Fin p × Fin q)) :
    ∀ st, (st.map Prod.fst).Nodup ∧ (st.map Prod.snd).Nodup →
      ((L.foldl greedyStep st).map Prod.fst).Nodup ∧
        ((L.foldl greedyStep st).map Prod.snd).Nodup := by
  induction L with
  | nil => exact fun st h => h
  | cons c t ih => exact fun st h => ih _ (greedyStep_nodup st c h)

/-- After the fold, no candidate has both its activity and its profile
free. -/
theorem greedy_no_free_pair {p q : ℕ} (L : List (Fin p × Fin q)) :
    ∀ st, ∀ c ∈ L,
      c.1 ∈ (L.foldl greedyStep st).map Prod.fst ∨
        c.2 ∈ (L.foldl greedyStep st).map Prod.snd := by
  induction L with
  | nil => intro st c hc; simp at hc
  | cons d t ih =>
      intro st c hc
      rcases List.mem_cons.mp hc with rfl | hct
      · by_cases hg : c.1 ∉ st.map Prod.fst ∧ c.2 ∉ st.map Prod.snd
        · left
          have hcin : c ∈ greedyStep st c := by
            unfold greedyStep
            rw [if_pos hg]
            exact List.mem_append_right _ (List.mem_singleton_self c)
          exact List.mem_map.mpr
            ⟨c, greedy_mem_mono t (greedyStep st c) c hcin, rfl⟩
        · rcases Decidable.not_and_iff_or_not.mp hg with h | h
          · left
            rcases List.mem_map.mp (Decidable.not_not.mp h) with ⟨x, hx, he⟩
            exact List.mem_map.mpr
              ⟨x, greedy_mem_mono t (greedyStep st c) x
                (by
                  unfold greedyStep
                  split
                  · exact List.mem_append_left _ hx
                  · exact hx), he⟩
          · right
            rcases List.mem_map.mp (Decidable.not_not.mp h) with ⟨x, hx, he⟩
            exact List.mem_map.mpr
              ⟨x, greedy_mem_mono t (greedyStep st c) x
                (by
                  unfold greedyStep
                  split
                  · exact List.mem_append_left _ hx
                  · exact hx), he⟩
      · exact ih (greedyStep st d) c hct

/-- Both greedy projections are duplicate-free. -/
theorem greedyPairs_nodup {p q : ℕ} (score : Fin p → Fin q → ℚ) :
    ((greedyPairs score).map Prod.fst).Nodup ∧
      ((greedyPairs score).map Prod.snd).Nodup :=
  greedy_fold_nodup _ [] (by simp)

/-- On a SQUARE score matrix the greedy heuristic assigns every activity:
it returns exactly `p` pairs. -/
theorem greedyPairs_length {p : ℕ} (score : Fin p → Fin p → ℚ) :
    (greedyPairs score).length = p := by
  obtain ⟨hf, hs⟩ := greedyPairs_nodup score
  have hle : (greedyPairs score).length ≤ p := by
    have := hf.length_le_card
    rwa [List.length_map, Fintype.card_fin] at this
  rcases eq_or_lt_of_le hle with he | hlt
  · exact he
  · exfalso
    have hafst : ∃ a : Fin p, a ∉ (greedyPairs score).map Prod.fst := by
      by_contra hall
      push_neg at hall
      have huniv : ((greedyPairs score).map Prod.fst).toFinset
          = Finset.univ :=
        Finset.eq_univ_iff_forall.mpr fun a => List.mem_toFinset.mpr (hall a)
      have hcard := congrArg Finset.card huniv
      rw [List.toFinset_card_of_nodup hf, Finset.card_univ,
        Fintype.card_fin, List.length_map] at hcard
      omega
    have hbsnd : ∃ b : Fin p, b ∉ (greedyPairs score).map Prod.snd := by
      by_contra hall
      push_neg at hall
      have huniv : ((greedyPairs score).map Prod.snd).toFinset
          = Finset.univ :=
        Finset.eq_univ_iff_forall.mpr fun b => List.mem_toFinset.mpr (hall b)
      have hcard := congrArg Finset.card huniv
      rw [List.toFinset_card_of_nodup hs, Finset.card_univ,
        Fintype.card_fin, List.length_map] at hcard
      omega
    obtain ⟨a, ha⟩ := hafst
    obtain ⟨b, hb⟩ := hbsnd
    have hmem : (a, b) ∈ List.insertionSort (greedyRel score)
        (allPairs p p) :=
      (List.perm_insertionSort (greedyRel score) (allPairs p p)).mem_iff.mpr
        (mem_allPairs (a, b))
    rcases greedy_no_free_pair _ [] (a, b) hmem with h | h
    · exact ha h
    · exact hb h

/-- The greedy total never beats the exact (Hungarian) total on a square
matrix: the greedy pairs form a permutation, and the exact total is the
maximum over all permutations. -/
theorem greedyTotal_le_hungarianTotal {p : ℕ} (score : Fin p → Fin p → ℚ) :
    greedyTotal score ≤ hungarianTotal score := by
  obtain ⟨hf, hs⟩ := greedyPairs_nodup score
  have hlen := greedyPairs_length score
  have hfuniv : ((greedyPairs score).map Prod.fst).toFinset
      = Finset.univ := by
    apply Finset.eq_univ_of_card
    rw [List.toFinset_card_of_nodup hf, List.length_map, hlen,
      Fintype.card_fin]
  have hfst_all : ∀ a : Fin p, ∃ c, c ∈ greedyPairs score ∧ c.1 = a := by
    intro a
    have : a ∈ (greedyPairs score).map Prod.fst :=
      List.mem_toFinset.mp (hfuniv ▸ Finset.mem_univ a)
    rcases List.mem_map.mp this with ⟨c, hc, he⟩
    exact ⟨c, hc, he⟩
  choose g hg1 hg2 using hfst_all
  have hpair : ∀ a, (a, (g a).2) ∈ greedyPairs score := by
    intro a
    have : g a = (a, (g a).2) := Prod.ext (hg2 a) rfl
    rw [← this]
    exact hg1 a
  have hinj : Function.Injective (fun a => (g a).2) := by
    intro a a' he
    have h2 := List.inj_on_of_nodup_map hs (hpair a) (hpair a') he
    exact congrArg Prod.fst h2
  have hbij := Finite.injective_iff_bijective.mp hinj
  have hform : ∀ c ∈ greedyPairs score, c = (c.1, (g c.1).2) := by
    intro c hc
    exact List.inj_on_of_nodup_map hf hc (hpair c.1) rfl
  have hsum : greedyTotal score
      = assignmentTotal score (Equiv.ofBijective _ hbij) := by
    unfold greedyTotal assignmentTotal
    have step1 : (greedyPairs score).map (fun c => score c.1 c.2)
        = (greedyPairs score).map (fun c => score c.1 (g c.1).2) :=
      List.map_congr_left fun c hc => by
        have h2 : c.2 = (g c.1).2 :=
          (congrArg Prod.snd (hform c hc)).trans rfl
        rw [h2]
    have step2 : (greedyPairs score).map (fun c => score c.1 (g c.1).2)
        = ((greedyPairs score).map Prod.fst).map
            (fun a => score a (g a).2) := by
      rw [List.map_map]
      rfl
    rw [step1, step2, ← List.sum_toFinset _ hf, hfuniv]
    rfl
  rw [hsum]
  exact Finset.le_sup' (assignmentTotal score) (Finset.mem_univ _)

/-- C1: on a square `p × p` score matrix the exact solver returns a
1-to-1 assignment — a permutation, so exactly `p` pairs with every
activity and every alternative used exactly once — whose total score is
maximal among all such assignments; in particular it is at least the
greedy heuristic's total on the same matrix. -/
theorem hungarian_optimal_and_ge_greedy {p : ℕ}
    (score : Fin p → Fin p → ℚ) :
    (∃ σ : Equiv.Perm (Fin p),
      assignmentTotal score σ = hungarianTotal score ∧
        ∀ j, ∃! i, σ i = j) ∧
    (∀ τ : Equiv.Perm (Fin p),
      assignmentTotal score τ ≤ hungarianTotal score) ∧
    greedyTotal score ≤ hungarianTotal score := by
  refine ⟨?_, fun τ => Finset.le_sup' (assignmentTotal score)
    (Finset.mem_univ τ), greedyTotal_le_hungarianTotal score⟩
  obtain ⟨σ, -, he⟩ :=
    Finset.exists_mem_eq_sup' (⟨1, Finset.mem_univ 1⟩ :
      (Finset.univ : Finset (Equiv.Perm (Fin p))).Nonempty)
      (assignmentTotal score)
  exact ⟨σ, he.symm, fun j =>
    ⟨σ.symm j, σ.apply_symm_apply j, fun i hi => by
      rw [← hi, Equiv.symm_apply_apply]⟩⟩
